import Mathlib

/-!
Verification development for the `iavl` repository: an immutable, versioned,
Merkleized AVL tree persisted over an ordered key-value store.

The Rust source is shallowly embedded below.  Byte strings are `List Nat`
(each element a byte value), machine integers are `Nat`/`Int` with explicit
bound checks mirroring the source's `checked_*` calls, fallible code returns
`Except` and in-code panics (`unwrap`/`unreachable!`/`assert!`) are modelled
by the distinguished error `Err.panicked`.
-/

deriving instance DecidableEq for Except

namespace Iavl

/-- Lexicographic strict order on byte strings, as Rust's `Ord` on `&[u8]`:
compare elementwise, a strict prefix is smaller. -/
def byteLt : List Nat → List Nat → Bool
  | [], [] => false
  | [], _ :: _ => true
  | _ :: _, [] => false
  | a :: as, b :: bs => if a < b then true else if b < a then false else byteLt as bs

/-- Unsigned LEB128 varint encoding, with explicit fuel (10 bytes suffice for
any value below `2^70`, in particular for every `u64`). -/
def varintFuel : Nat → Nat → List Nat
  | 0, _ => []
  | fuel + 1, n => if n < 128 then [n] else (n % 128 + 128) :: varintFuel fuel (n / 128)

/-- Unsigned varint encoding of a `u64`-ranged value (Google style, as used by
the `integer_encoding` crate's `write_varint` for unsigned integers). -/
def varint (n : Nat) : List Nat := varintFuel 10 n

/-- Unsigned varint decoding: returns the value and the remaining bytes.
(The crate bounds the number of continuation bytes by the target width; on the
round-trip domain used in this development the two agree.) -/
def devarint : List Nat → Option (Nat × List Nat)
  | [] => none
  | b :: rest =>
    if b < 128 then some (b, rest)
    else match devarint rest with
      | some (v, r) => some (b - 128 + 128 * v, r)
      | none => none

/-- Zigzag encoding of a non-negative value (`(v << 1) ^ (v >> 63)` for
`v ≥ 0` is `2 * v`); the source only ever writes non-negative values
(`U7`/`U31`/`U63` via `to_signed`). -/
def zigzag (n : Nat) : Nat := 2 * n

/-- Zigzag decoding, to a mathematical integer. -/
def dezigzag (u : Nat) : Int := if u % 2 = 0 then (u / 2 : Nat) else -(((u + 1) / 2 : Nat) : Int)

/-- `U{7,31,63}::from_signed` composed with the range check of `new`:
rejects negatives and values above `max`. -/
def fromSigned (max : Nat) (i : Int) : Option Nat :=
  if i < 0 then none else if i.toNat ≤ max then some i.toNat else none

/-- Bound of `U7` (`i8::MAX`). -/
def U7MAX : Nat := 127
/-- Bound of `U31` (`i32::MAX`). -/
def U31MAX : Nat := 2 ^ 31 - 1
/-- Bound of `U63` (`i64::MAX`). -/
def U63MAX : Nat := 2 ^ 63 - 1

/-- `checked_add` on `u64` followed by `U63::new`, as the source writes
`x.checked_add(y).and_then(U63::new)`. -/
def checkedAddU63 (x y : Nat) : Option Nat :=
  if x + y ≤ U63MAX then some (x + y) else none

/-- `checked_add(1)` on `u8` followed by `U7::new`. -/
def checkedSuccU7 (x : Nat) : Option Nat :=
  if x + 1 ≤ U7MAX then some (x + 1) else none

/-! ## SHA-256, executable over byte lists -/

namespace Sha

/-- Bitwise exclusive or by structural recursion, four bit positions per
step (pure arithmetic, so that kernel reduction is fast and avoids
`Nat.bitwise`'s well-founded recursion). -/
def xorF : Nat → Nat → Nat → Nat
  | 0, _, _ => 0
  | fuel + 1, a, b =>
    (a % 2 + b % 2) % 2 + 2 * ((a / 2 % 2 + b / 2 % 2) % 2) +
      4 * ((a / 4 % 2 + b / 4 % 2) % 2) + 8 * ((a / 8 % 2 + b / 8 % 2) % 2) +
      16 * xorF fuel (a / 16) (b / 16)

/-- Bitwise and, likewise. -/
def andF : Nat → Nat → Nat → Nat
  | 0, _, _ => 0
  | fuel + 1, a, b =>
    a % 2 * (b % 2) + 2 * (a / 2 % 2 * (b / 2 % 2)) +
      4 * (a / 4 % 2 * (b / 4 % 2)) + 8 * (a / 8 % 2 * (b / 8 % 2)) +
      16 * andF fuel (a / 16) (b / 16)

def xor32 (a b : Nat) : Nat := xorF 8 a b

def and32 (a b : Nat) : Nat := andF 8 a b

def not32 (a : Nat) : Nat := 4294967295 - a % 4294967296

/-- Right rotation of a 32-bit word, arithmetically (no overlap, so no `or`). -/
def rotr (n x : Nat) : Nat := x / 2 ^ n + x % 2 ^ n * 2 ^ (32 - n)

def shr (n x : Nat) : Nat := x / 2 ^ n

def add32 (a b : Nat) : Nat := (a + b) % 4294967296

def bigSigma0 (x : Nat) : Nat := xor32 (rotr 2 x) (xor32 (rotr 13 x) (rotr 22 x))

def bigSigma1 (x : Nat) : Nat := xor32 (rotr 6 x) (xor32 (rotr 11 x) (rotr 25 x))

def smallSigma0 (x : Nat) : Nat := xor32 (rotr 7 x) (xor32 (rotr 18 x) (shr 3 x))

def smallSigma1 (x : Nat) : Nat := xor32 (rotr 17 x) (xor32 (rotr 19 x) (shr 10 x))

def ch (e f g : Nat) : Nat := xor32 (and32 e f) (and32 (not32 e) g)

def maj (a b c : Nat) : Nat := xor32 (and32 a b) (xor32 (and32 a c) (and32 b c))

def K : List Nat :=
  [1116352408, 1899447441, 3049323471, 3921009573, 961987163,
   1508970993, 2453635748, 2870763221, 3624381080, 310598401,
   607225278, 1426881987, 1925078388, 2162078206, 2614888103,
   3248222580, 3835390401, 4022224774, 264347078, 604807628,
   770255983, 1249150122, 1555081692, 1996064986, 2554220882,
   2821834349, 2952996808, 3210313671, 3336571891, 3584528711,
   113926993, 338241895, 666307205, 773529912, 1294757372,
   1396182291, 1695183700, 1986661051, 2177026350, 2456956037,
   2730485921, 2820302411, 3259730800, 3345764771, 3516065817,
   3600352804, 4094571909, 275423344, 430227734, 506948616,
   659060556, 883997877, 958139571, 1322822218, 1537002063,
   1747873779, 1955562222, 2024104815, 2227730452, 2361852424,
   2428436474, 2756734187, 3204031479, 3329325298]

def IV : List Nat :=
  [1779033703, 3144134277, 1013904242, 2773480762,
   1359893119, 2600822924, 528734635, 1541459225]

/-- Pack bytes into 32-bit big-endian words. -/
def toWords : List Nat → List Nat
  | a :: b :: c :: d :: rest => (((a * 256 + b) * 256 + c) * 256 + d) :: toWords rest
  | _ => []

/-- Extend the message schedule; `wr` holds the words produced so far,
newest first. -/
def extendSched : Nat → List Nat → List Nat
  | 0, wr => wr
  | fuel + 1, wr =>
    let next := (smallSigma1 (wr.getD 1 0) + wr.getD 6 0 +
      smallSigma0 (wr.getD 14 0) + wr.getD 15 0) % 4294967296
    extendSched fuel (next :: wr)

/-- One round of the compression function. -/
def round (st : Nat × Nat × Nat × Nat × Nat × Nat × Nat × Nat) (wk : Nat × Nat) :
    Nat × Nat × Nat × Nat × Nat × Nat × Nat × Nat :=
  match st, wk with
  | (a, b, c, d, e, f, g, h), (w, k) =>
    let t1 := (h + bigSigma1 e + ch e f g + k + w) % 4294967296
    let t2 := (bigSigma0 a + maj a b c) % 4294967296
    ((t1 + t2) % 4294967296, a, b, c, (d + t1) % 4294967296, e, f, g)

/-- Compress one 64-byte block into the running hash state. -/
def compress (hs : List Nat) (block : List Nat) : List Nat :=
  let w16 := toWords block
  let ws := (extendSched 48 w16.reverse).reverse
  match hs with
  | [h0, h1, h2, h3, h4, h5, h6, h7] =>
    match (ws.zip K).foldl round (h0, h1, h2, h3, h4, h5, h6, h7) with
    | (a, b, c, d, e, f, g, h) =>
      [add32 h0 a, add32 h1 b, add32 h2 c, add32 h3 d,
       add32 h4 e, add32 h5 f, add32 h6 g, add32 h7 h]
  | _ => []

/-- Big-endian byte expansion of `n` into `len` bytes. -/
def beBytes : Nat → Nat → List Nat
  | 0, _ => []
  | len + 1, n => beBytes len (n / 256) ++ [n % 256]

/-- SHA-256 padding: `0x80`, zeros, then the 64-bit big-endian bit length. -/
def pad (msg : List Nat) : List Nat :=
  msg ++ 128 :: List.replicate ((119 - msg.length % 64) % 64) 0 ++ beBytes 8 (msg.length * 8)

def blocksLoop : Nat → List Nat → List Nat → List Nat
  | 0, _, hs => hs
  | fuel + 1, msg, hs => blocksLoop fuel (msg.drop 64) (compress hs (msg.take 64))

/-- SHA-256 of a byte list, as a list of 32 bytes. -/
def sha256 (msg : List Nat) : List Nat :=
  let padded := pad msg
  let hs := blocksLoop (padded.length / 64) padded IV
  hs.flatMap (beBytes 4)

end Sha

export Sha (sha256)

/-- The SHA-256 digest of the empty string, the `EMPTY_ROOT_HASH` constant of
`MutableTree`. -/
def EMPTY_ROOT_HASH : List Nat :=
  [0xE3, 0xB0, 0xC4, 0x42, 0x98, 0xFC, 0x1C, 0x14, 0x9A, 0xFB, 0xF4, 0xC8, 0x99, 0x6F, 0xB9,
   0x24, 0x27, 0xAE, 0x41, 0xE4, 0x64, 0x9B, 0x93, 0x4C, 0xA4, 0x95, 0x99, 0x1B, 0x78, 0x52,
   0xB8, 0x55]

/-! ## Data model: node keys, the key-value store, errors -/

/-- `NodeKey` from `lib.rs`: `(version: U63, nonce: U31)`. -/
structure NodeKey where
  version : Nat
  nonce : Nat
  deriving DecidableEq, Repr

/-- Big-endian value of a byte list (`try_get_u64` / `try_get_u32` payload). -/
def beVal (bs : List Nat) : Nat := bs.foldl (fun a b => a * 256 + b) 0

/-- `encoding::make_ndb_key::<b's'>`: 13 bytes, tag `0x73` then version as
big-endian `u64` then nonce as big-endian `u32`. -/
def makeNdbKey (nk : NodeKey) : List Nat :=
  115 :: Sha.beBytes 8 nk.version ++ Sha.beBytes 4 nk.nonce

/-- `root_ndb_key`: the DB key of the root record for `version` (nonce 1). -/
def rootNdbKey (version : Nat) : List Nat := makeNdbKey ⟨version, 1⟩

/-- The backing key-value store, an association list of byte strings
(insertion order retained; only `get`/`insert` semantics matter here). -/
abbrev Db := List (List Nat × List Nat)

def dbGet (db : Db) (k : List Nat) : Option (List Nat) :=
  match db with
  | [] => none
  | (k0, v0) :: rest => if k0 = k then some v0 else dbGet rest k

/-- Insert overwriting; returns the new store and whether the key existed. -/
def dbInsert (db : Db) (k v : List Nat) : Db × Bool :=
  match db with
  | [] => ([(k, v)], false)
  | (k0, v0) :: rest =>
    if k0 = k then ((k0, v) :: rest, true)
    else
      let (db2, existed) := dbInsert rest k v
      ((k0, v0) :: db2, existed)

/-- Flattened error domain of the embedding.  `panicked` models Rust panics
(`unwrap`, `unreachable!`, failed `assert!`, `expect`); the other
constructors mirror the source's error enums. -/
inductive Err where
  | panicked
  | childNotFound
  | invalidChild
  | overflow
  | conflictingRoot
  | missingNodeKey
  | poisonedLock
  | invalidInteger
  | zeroLength
  | lengthMismatch
  | invalidMode
  | ioShort
  | fuelOut
  deriving DecidableEq, Repr

/-! ## Nodes

`Node = Drafted | Saved` with `Leaf | Inner` per stage, children being
`Child = Full | Part`.  A saved node carries version, Merkle hash and nonce;
a saved inner additionally carries the children's node keys (the source's
`saux : NodeKeyPair`; the `haux : NodeHashPair` metadata is carried by the
source but never read by any operation modelled here, so it is omitted). -/

mutual
inductive XNode where
  | dleaf (key value : List Nat)
  | sleaf (key value : List Nat) (version : Nat) (hash : List Nat) (nonce : Nat)
  | dinner (key : List Nat) (height size : Nat) (left right : XChild)
  | sinner (key : List Nat) (height size : Nat) (left right : XChild)
      (version : Nat) (hash : List Nat) (nonce : Nat) (lnk rnk : NodeKey)
  deriving DecidableEq, Repr

inductive XChild where
  | full (node : XNode)
  | part (nk : NodeKey)
  deriving DecidableEq, Repr
end

namespace XNode

/-- `Node::key`. -/
def xkey : XNode → List Nat
  | dleaf k _ => k
  | sleaf k _ _ _ _ => k
  | dinner k _ _ _ _ => k
  | sinner k _ _ _ _ _ _ _ _ _ => k

/-- `Node::height` (a leaf has height 0). -/
def xheight : XNode → Nat
  | dleaf _ _ => 0
  | sleaf _ _ _ _ _ => 0
  | dinner _ h _ _ _ => h
  | sinner _ h _ _ _ _ _ _ _ _ => h

/-- `Node::size` (a leaf has size 1). -/
def xsize : XNode → Nat
  | dleaf _ _ => 1
  | sleaf _ _ _ _ _ => 1
  | dinner _ _ s _ _ => s
  | sinner _ _ s _ _ _ _ _ _ _ => s

/-- `Node::hash`: `Some` only for saved nodes. -/
def xhash : XNode → Option (List Nat)
  | sleaf _ _ _ h _ => some h
  | sinner _ _ _ _ _ _ h _ _ _ => some h
  | _ => none

/-- `Node::value`: `Some` only for leaves. -/
def xvalue : XNode → Option (List Nat)
  | dleaf _ v => some v
  | sleaf _ v _ _ _ => some v
  | _ => none

/-- `Node::is_leaf`. -/
def isLeaf : XNode → Bool
  | dleaf _ _ => true
  | sleaf _ _ _ _ _ => true
  | _ => false

/-- `SavedNode::node_key`, through `Node::as_saved`. -/
def xnodeKey : XNode → Option NodeKey
  | sleaf _ _ v _ n => some ⟨v, n⟩
  | sinner _ _ _ _ _ v _ n _ _ => some ⟨v, n⟩
  | _ => none

end XNode

-- Structural node count (used as recursion fuel for the lazily-loaded
-- descents; on fully materialized trees the recursion depth is below it).
mutual
def xcount : XNode → Nat
  | .dleaf _ _ => 1
  | .sleaf _ _ _ _ _ => 1
  | .dinner _ _ _ l r => 1 + xcountC l + xcountC r
  | .sinner _ _ _ l r _ _ _ _ _ => 1 + xcountC l + xcountC r

def xcountC : XChild → Nat
  | .full n => xcount n
  | .part _ => 0
end

/-! ## Serialization and hashing -/

/-- `encoding::serialize_nebz`: `varint(len) ‖ bytes`. -/
def serializeNebz (bz : List Nat) : List Nat := varint bz.length ++ bz

/-- `encoding::serialize_hash`: `varint(32) ‖ hash`. -/
def serializeHash (h : List Nat) : List Nat := varint 32 ++ h

/-- `NodeKey::serialize`: zigzag varints of version and nonce. -/
def nkSerialize (nk : NodeKey) : List Nat :=
  varint (zigzag nk.version) ++ varint (zigzag nk.nonce)

/-- `LeafNode::serialize`: the constant bytes `[0, 2]`
(`SUBTREE_HEIGHT_AND_SIZE_VARINT_ENCODED`) then length-prefixed key and
value. -/
def leafSerialize (key value : List Nat) : List Nat :=
  [0, 2] ++ serializeNebz key ++ serializeNebz value

/-- `InnerNode::serialize`: zigzag varints of height and size, the
length-prefixed key, the hash, the legacy-mode byte `0`, then both child
node keys. -/
def innerSerialize (height size : Nat) (key hash : List Nat) (lnk rnk : NodeKey) : List Nat :=
  varint (zigzag height) ++ varint (zigzag size) ++ serializeNebz key ++
    serializeHash hash ++ varint 0 ++ nkSerialize lnk ++ nkSerialize rnk

/-- `SavedNode::serialize` (defined only on saved nodes). -/
def serializeSaved : XNode → Option (List Nat)
  | .sleaf k v _ _ _ => some (leafSerialize k v)
  | .sinner k h s _ _ _ hash _ lnk rnk => some (innerSerialize h s k hash lnk rnk)
  | _ => none

/-- `LeafNode::to_hashed`'s digest: SHA-256 over the constant `[0, 2]`, the
zigzag varint of the version, the length-prefixed key and the
length-prefixed digest of the value. -/
def leafHash (key value : List Nat) (version : Nat) : List Nat :=
  sha256 ([0, 2] ++ varint (zigzag version) ++
    (varint key.length ++ key) ++ serializeHash (sha256 value))

/-- `InnerNode::to_hashed`'s digest: SHA-256 over the zigzag varints of
height, size and version and the two length-prefixed child hashes. -/
def innerHash (height size version : Nat) (lhash rhash : List Nat) : List Nat :=
  sha256 (varint (zigzag height) ++ varint (zigzag size) ++ varint (zigzag version) ++
    serializeHash lhash ++ serializeHash rhash)

/-! ## Deserialization -/

/-- Read one unsigned varint; end of input is an IO error. -/
def readVarint (bs : List Nat) : Except Err (Nat × List Nat) :=
  match devarint bs with
  | some r => .ok r
  | none => .error .ioShort

/-- Read a zigzag varint and convert through `from_signed` with bound `max`
(negative or out-of-range values are `InvalidInteger`). -/
def readSigned (max : Nat) (bs : List Nat) : Except Err (Nat × List Nat) := do
  let (u, r) ← readVarint bs
  match fromSigned max (dezigzag u) with
  | some n => .ok (n, r)
  | none => .error .invalidInteger

/-- `encoding::deserialize_bytes`: length-prefixed byte string; zero length
and truncated input are errors. -/
def deserializeBytes (bs : List Nat) : Except Err (List Nat × List Nat) := do
  let (len, r) ← readVarint bs
  if len = 0 then .error .zeroLength
  else if r.length < len then .error .lengthMismatch
  else .ok (r.take len, r.drop len)

/-- `encoding::deserialize_hash`: the length prefix must be exactly 32. -/
def deserializeHash (bs : List Nat) : Except Err (List Nat × List Nat) := do
  let (len, r) ← readVarint bs
  if len ≠ 32 then .error .lengthMismatch
  else if r.length < 32 then .error .ioShort
  else .ok (r.take 32, r.drop 32)

/-- `NodeKey::deserialize`: two zigzag varints checked against `U63`/`U31`. -/
def nkDeserialize (bs : List Nat) : Except Err (NodeKey × List Nat) := do
  let (v, r1) ← readSigned U63MAX bs
  let (n, r2) ← readSigned U31MAX r1
  .ok (⟨v, n⟩, r2)

/-- `DeserializedNode`: a drafted leaf, or a drafted inner (children as node
keys) together with its stored hash. -/
inductive DNode where
  | leaf (key value : List Nat)
  | inner (key : List Nat) (height size : Nat) (hash : List Nat) (lnk rnk : NodeKey)
  deriving DecidableEq, Repr

/-- `DeserializedNode::deserialize`. -/
def deserializeNode (bs : List Nat) : Except Err (DNode × List Nat) := do
  let (h, r1) ← readSigned U7MAX bs
  let (s, r2) ← readSigned U63MAX r1
  let (key, r3) ← deserializeBytes r2
  if h = 0 then do
    let (v, r4) ← deserializeBytes r3
    .ok (.leaf key v, r4)
  else do
    let (hash, r4) ← deserializeHash r3
    let (m, r5) ← readVarint r4
    if m ≠ 0 then .error .invalidMode
    else do
      let (lnk, r6) ← nkDeserialize r5
      let (rnk, r7) ← nkDeserialize r6
      .ok (.inner key h s hash lnk rnk, r7)

/-! ## Node DB layer (`node/ndb.rs`) -/

/-- `FetchedNode`: the three record kinds of the node DB. -/
inductive FetchedNode where
  | emptyRoot
  | referenceRoot (nk : NodeKey)
  | deserialized (d : DNode)
  deriving DecidableEq, Repr

/-- Read `n` big-endian bytes (`try_get_u64`/`try_get_u32`). -/
def readBe (n : Nat) (bs : List Nat) : Option (Nat × List Nat) :=
  if bs.length < n then none else some (beVal (bs.take n), bs.drop n)

/-- `make_fetched_node`, on the split first byte and remainder of a record's
value: `0xFF` is an empty root, `0x73` a reference root (big-endian version
and nonce), anything else a serialized node (parsed from the whole value). -/
def makeFetchedNode (b : Nat) (rest : List Nat) : Except Err FetchedNode :=
  if b = 255 then .ok .emptyRoot
  else if b = 115 then
    match readBe 8 rest with
    | none => .error .invalidInteger
    | some (v, r1) =>
      if v ≤ U63MAX then
        match readBe 4 r1 with
        | none => .error .invalidInteger
        | some (n, _) =>
          if n ≤ U31MAX then .ok (.referenceRoot ⟨v, n⟩) else .error .invalidInteger
      else .error .invalidInteger
  else (deserializeNode (b :: rest)).map (fun p => .deserialized p.1)

/-- `NodeDb::fetch_one_node`. -/
def fetchOneNode (db : Db) (nk : NodeKey) : Except Err (Option FetchedNode) :=
  match dbGet db (makeNdbKey nk) with
  | none => .ok none
  | some [] => .error .panicked
  | some (b :: rest) => (makeFetchedNode b rest).map some

/-- `NodeDb::save_overwriting_one_node`: serialize a saved node under its
node key, overwriting; returns whether the key existed. -/
def saveOverwritingOneNode (db : Db) (n : XNode) : Except Err (Db × Bool) :=
  match n.xnodeKey, serializeSaved n with
  | some nk, some bz => .ok (dbInsert db (makeNdbKey nk) bz)
  | _, _ => .error .panicked

/-- `NodeDb::save_overwriting_empty_root`: the single byte `0xFF` at
`(version, 1)`. -/
def saveOverwritingEmptyRoot (db : Db) (version : Nat) : Db × Bool :=
  dbInsert db (rootNdbKey version) [255]

/-- `NodeDb::save_overwriting_reference_root`: the 13-byte DB key of the
original root, at `(version, 1)`. -/
def saveOverwritingReferenceRoot (db : Db) (version : Nat) (originalNk : NodeKey) : Db × Bool :=
  dbInsert db (rootNdbKey version) (makeNdbKey originalNk)

/-- `NodeDb::save_non_overwririting_one_node` (name as in the source): fetch
first and return the existing record unchanged, otherwise write, asserting
that no conflicting record appears. -/
def saveNonOverwritingOneNode (db : Db) (n : XNode) : Except Err (Db × Option FetchedNode) := do
  match ← match n.xnodeKey with
    | some nk => fetchOneNode db nk
    | none => .error .panicked with
  | some existing => .ok (db, some existing)
  | none => do
    let (db2, existed) ← saveOverwritingOneNode db n
    if existed then .error .panicked else .ok (db2, none)

/-- Modelled from the spec: `DeserializedNode::into_saved_checked` is called
from `src` but its definition is not under `src/`.  Per §4.H of the spec, it
turns a deserialized node into a Saved node at the node key it was fetched
from: a leaf is re-hashed at that version, an inner node keeps its stored
hash and its children stay unresolved (`Part`) node keys. -/
def intoSavedChecked (d : DNode) (nk : NodeKey) : XNode :=
  match d with
  | .leaf k v => .sleaf k v nk.version (leafHash k v nk.version) nk.nonce
  | .inner k h s hash lnk rnk =>
    .sinner k h s (.part lnk) (.part rnk) nk.version hash nk.nonce lnk rnk

/-! ## Children (`node/inner.rs`) -/

namespace XNode

/-- `Node::left`. -/
def xleft : XNode → Option XChild
  | dinner _ _ _ l _ => some l
  | sinner _ _ _ l _ _ _ _ _ _ => some l
  | _ => none

/-- `Node::right`. -/
def xright : XNode → Option XChild
  | dinner _ _ _ _ r => some r
  | sinner _ _ _ _ r _ _ _ _ _ => some r
  | _ => none

end XNode

/-- `Child::fetch_full`: a `Full` child is returned as is; a `Part` is
fetched from the node DB, marker records being `InvalidChild`. -/
def fetchFull (c : XChild) (db : Db) : Except Err XNode :=
  match c with
  | .full n => .ok n
  | .part nk => do
    match ← fetchOneNode db nk with
    | none => .error .childNotFound
    | some (.deserialized d) => .ok (intoSavedChecked d nk)
    | some _ => .error .invalidChild

/-- The replacement `Child::extract` leaves behind in the slot: a saved full
child becomes a `Part` of its node key, anything else is unchanged. -/
def extractSlot (c : XChild) : XChild :=
  match c with
  | .part nk => .part nk
  | .full n =>
    match n.xnodeKey with
    | some nk => .part nk
    | none => .full n

/-- The node with both child slots replaced as `Child::extract` leaves them
(the state of an inner node after its children were extracted). -/
def withSlotsExtracted (n : XNode) : XNode :=
  match n with
  | .dinner k h s l r => .dinner k h s (extractSlot l) (extractSlot r)
  | .sinner k h s l r v hh nn lnk rnk =>
    .sinner k h s (extractSlot l) (extractSlot r) v hh nn lnk rnk
  | other => other

/-- The local `extract_full` closure of `InnerNode::make_balanced`: like
`fetch_full`, but a marker record hits `unreachable!()` — a panic, not
`InvalidChild`. -/
def balanceExtractFull (db : Db) (c : XChild) : Except Err XNode :=
  match c with
  | .full n => .ok n
  | .part nk => do
    match ← fetchOneNode db nk with
    | none => .error .childNotFound
    | some (.deserialized d) => .ok (intoSavedChecked d nk)
    | some _ => .error .panicked

/-- Height of a freshly built node in `make_balanced`:
`max(a, b).checked_add(1).and_then(U7::new).ok_or(Overflow)`. -/
def balHeight (a b : Nat) : Except Err Nat :=
  match checkedSuccU7 (max a b) with
  | some x => .ok x
  | none => .error .overflow

/-- Size of a freshly built node in `make_balanced`:
`a.checked_add(b).ok_or(Overflow)?.checked_add(1).and_then(U63::new)` —
note the extra `+ 1` in the source. -/
def balSize (a b : Nat) : Except Err Nat :=
  if a + b ≤ 2 ^ 64 - 1 then
    if a + b + 1 ≤ U63MAX then .ok (a + b + 1) else .error .overflow
  else .error .overflow

/-- `InnerNode::make_balanced` on a drafted inner node given by its fields;
the result is the node after the method's in-place mutation. -/
def makeBalanced (db : Db) (key : List Nat) (height size : Nat) (left right : XChild) :
    Except Err XNode := do
  let l ← balanceExtractFull db left
  let r ← balanceExtractFull db right
  let diff : Int := (l.xheight : Int) - (r.xheight : Int)
  if -1 ≤ diff ∧ diff ≤ 1 then
    .ok (.dinner key height size (.full l) (.full r))
  else if 1 < diff then
    match l.xleft, l.xright with
    | some llc, some lrc => do
      let ll ← balanceExtractFull db llc
      let lr ← balanceExtractFull db lrc
      let leftDiff : Int := (ll.xheight : Int) - (lr.xheight : Int)
      if 0 ≤ leftDiff then do
        -- left-left: one right rotation on self
        let nrh ← balHeight r.xheight lr.xheight
        let nrs ← balSize r.xsize lr.xsize
        let newRight := XNode.dinner key nrh nrs (.full lr) (.full r)
        let rh2 ← balHeight ll.xheight nrh
        let rs2 ← balSize ll.xsize nrs
        .ok (.dinner l.xkey rh2 rs2 (.full ll) (.full newRight))
      else
        -- left-right: left rotation on left, then right rotation on self
        match lr.xleft, lr.xright with
        | some lrlc, some lrrc => do
          let lrl ← balanceExtractFull db lrlc
          let lrr ← balanceExtractFull db lrrc
          let nlh ← balHeight ll.xheight lrl.xheight
          let nls ← balSize ll.xsize lrl.xsize
          let newLeft := XNode.dinner l.xkey nlh nls (.full ll) (.full lrl)
          let nrh ← balHeight lrr.xheight r.xheight
          let nrs ← balSize lrr.xsize r.xsize
          let newRight := XNode.dinner key nrh nrs (.full lrr) (.full r)
          let rh2 ← balHeight nlh nrh
          let rs2 ← balSize nls nrs
          .ok (.dinner lr.xkey rh2 rs2 (.full newLeft) (.full newRight))
        | _, _ => .error .panicked
    | _, _ => .error .panicked
  else
    match r.xleft, r.xright with
    | some rlc, some rrc => do
      let rl ← balanceExtractFull db rlc
      let rr ← balanceExtractFull db rrc
      let rightDiff : Int := (rl.xheight : Int) - (rr.xheight : Int)
      if rightDiff ≤ 0 then do
        -- right-right: one left rotation on self
        let nlh ← balHeight l.xheight rl.xheight
        let nls ← balSize l.xsize rl.xsize
        let newLeft := XNode.dinner key nlh nls (.full l) (.full rl)
        let rh2 ← balHeight nlh rr.xheight
        let rs2 ← balSize rr.xsize nls
        .ok (.dinner r.xkey rh2 rs2 (.full newLeft) (.full rr))
      else
        -- right-left: right rotation on right, then left rotation on self
        match rl.xleft, rl.xright with
        | some rllc, some rlrc => do
          let rll ← balanceExtractFull db rllc
          let rlr ← balanceExtractFull db rlrc
          let nlh ← balHeight l.xheight rll.xheight
          let nls ← balSize l.xsize rll.xsize
          let newLeft := XNode.dinner key nlh nls (.full l) (.full rll)
          let nrh ← balHeight rlr.xheight rr.xheight
          let nrs ← balSize rlr.xsize rr.xsize
          let newRight := XNode.dinner r.xkey nrh nrs (.full rlr) (.full rr)
          let rh2 ← balHeight nlh nrh
          let rs2 ← balSize nls nrs
          .ok (.dinner rl.xkey rh2 rs2 (.full newLeft) (.full newRight))
        | _, _ => .error .panicked
    | _, _ => .error .panicked

/-! ## Lookup, insertion, removal (`node.rs`, `mutable.rs`)

The Rust recursion descends through children that may be lazily fetched from
the DB, so it is not structurally decreasing; the embedding threads explicit
fuel and the `MutableTree` wrappers pass `xcount root + 1`, which the fully
materialized recursion never exhausts. -/

/-- `Node::get`: `(index, value)` lookup. -/
def nodeGet : Nat → XNode → Db → List Nat → Except Err (Nat × Option (List Nat))
  | 0, _, _, _ => .error .fuelOut
  | fuel + 1, n, db, key =>
    match n.xvalue with
    | some v => if key = n.xkey then .ok (0, some v) else .ok (0, none)
    | none =>
      if byteLt key n.xkey then
        match n.xleft with
        | none => .error .panicked
        | some lc => do
          let l ← fetchFull lc db
          nodeGet fuel l db key
      else
        match n.xright with
        | none => .error .panicked
        | some rc => do
          let r ← fetchFull rc db
          let (i, v) ← nodeGet fuel r db key
          -- i.checked_add(self.size - right_size).and_then(U63::new).unwrap()
          if i + (n.xsize - r.xsize) ≤ U63MAX then .ok (i + (n.xsize - r.xsize), v)
          else .error .panicked

/-- `handle_leaf_insert_case`: replace on equal key, otherwise split into an
inner node of height 1 and size 2; paired with the `updated` flag
(`matches!(node, DraftedNode::Leaf(_))`). -/
def handleLeafInsertCase (node : XNode) (existingKey newKey newValue : List Nat) :
    XNode × Bool :=
  let newLeaf := XNode.dleaf newKey newValue
  if newKey = existingKey then (newLeaf, true)
  else if byteLt newKey existingKey then
    (.dinner existingKey 1 2 (.full newLeaf) (.full node), false)
  else
    (.dinner newKey 1 2 (.full node) (.full newLeaf), false)

/-- `recursive_insert`. -/
def recursiveInsert : Nat → XNode → Db → List Nat → List Nat → Except Err (XNode × Bool)
  | 0, _, _, _, _ => .error .fuelOut
  | fuel + 1, node, db, key, value =>
    if node.isLeaf then .ok (handleLeafInsertCase node node.xkey key value)
    else
      match node.xleft, node.xright with
      | some lc, some rc => do
        let left ← fetchFull lc db
        let right ← fetchFull rc db
        let (l2, r2, updated) ←
          if byteLt key node.xkey then do
            let (nl, u) ← recursiveInsert fuel left db key value
            Except.ok (nl, right, u)
          else do
            let (nr, u) ← recursiveInsert fuel right db key value
            Except.ok (left, nr, u)
        match checkedSuccU7 (max l2.xheight r2.xheight) with
        | none => .error .panicked
        | some h =>
          match checkedAddU63 l2.xsize r2.xsize with
          | none => .error .panicked
          | some s =>
            if updated then .ok (.dinner node.xkey h s (.full l2) (.full r2), true)
            else do
              let t ← makeBalanced db node.xkey h s (.full l2) (.full r2)
              .ok (t, false)
      | _, _ => .error .panicked

/-- `recursive_remove`. -/
def recursiveRemove : Nat → XNode → Db → List Nat → Except Err (Option XNode × Bool)
  | 0, _, _, _ => .error .fuelOut
  | fuel + 1, node, db, key =>
    if node.isLeaf then
      if node.xkey = key then .ok (none, true) else .ok (some node, false)
    else
      match node.xleft, node.xright with
      | some lc, some rc => do
        let left ← fetchFull lc db
        let right ← fetchFull rc db
        let (newLeft, newRight, removed) ←
          if byteLt key node.xkey then do
            let (nl, rm) ← recursiveRemove fuel left db key
            Except.ok (nl, some right, rm)
          else do
            let (nr, rm) ← recursiveRemove fuel right db key
            Except.ok (some left, nr, rm)
        if removed then
          match newLeft, newRight with
          | none, none => .error .panicked
          | some l2, none => .ok (some l2, true)
          | none, some r2 => .ok (some r2, true)
          | some l2, some r2 =>
            match checkedSuccU7 (max l2.xheight r2.xheight) with
            | none => .error .panicked
            | some h =>
              match checkedAddU63 l2.xsize r2.xsize with
              | none => .error .panicked
              | some s => do
                let t ← makeBalanced db node.xkey h s (.full l2) (.full r2)
                .ok (some t, true)
        else
          -- the original node is returned, its child slots as `extract` left them
          .ok (some (withSlotsExtracted node), false)
      | _, _ => .error .panicked

/-- Whether a node is in the `Drafted` stage. -/
def XNode.isDrafted : XNode → Bool
  | .dleaf _ _ => true
  | .dinner _ _ _ _ _ => true
  | _ => false

-- `recursive_make_saved_nodes`: pre-order nonce assignment, hashing each
-- drafted node at `version` and persisting it with the no-conflict
-- assertion.  Only in-memory (`Full`) drafted children are descended into
-- (the mutual helper is the loop body applied to each child slot).
mutual
def recursiveMakeSavedNodes (drafted : XNode) (db : Db) (version nonce : Nat) :
    Except Err (XNode × Db × Nat) :=
  -- nonce.checked_add(1).and_then(U31::new).ok_or(Overflow)
  match (if nonce + 1 ≤ U31MAX then some (nonce + 1) else none) with
  | none => .error .overflow
  | some thisNonce => do
    let (saved, db3, nonce3) ←
      match drafted with
      | .dleaf k v =>
        Except.ok (XNode.sleaf k v version (leafHash k v version) thisNonce, db, thisNonce)
      | .dinner k h s lc rc => do
        let (lc2, db2, nonce2) ← rmsChild lc db version thisNonce
        let (rc2, db3, nonce3) ← rmsChild rc db2 version nonce2
        -- to_hashed needs both children Full with a hash; into_saved needs
        -- their node keys; the source unwraps both
        match lc2, rc2 with
        | .full ln, .full rn =>
          match ln.xhash, rn.xhash, ln.xnodeKey, rn.xnodeKey with
          | some lh, some rh, some lnk, some rnk =>
            Except.ok
              (XNode.sinner k h s lc2 rc2 version (innerHash h s version lh rh) thisNonce
                lnk rnk, db3, nonce3)
          | _, _, _, _ => Except.error .panicked
        | _, _ => Except.error .panicked
      | _ => Except.error .panicked
    -- assert!(ndb.save_non_overwririting_one_node(&saved)?.is_none())
    let (db4, existing) ← saveNonOverwritingOneNode db3 saved
    match existing with
    | some _ => Except.error .panicked
    | none => Except.ok (saved, db4, nonce3)

/-- One child slot of `recursive_make_saved_nodes`: a full drafted child is
recursively saved in place, anything else is left untouched. -/
def rmsChild (c : XChild) (db : Db) (version nonce : Nat) :
    Except Err (XChild × Db × Nat) :=
  match c with
  | .full n =>
    if n.isDrafted then do
      let (sn, dbx, nx) ← recursiveMakeSavedNodes n db version nonce
      Except.ok (XChild.full sn, dbx, nx)
    else Except.ok (XChild.full n, db, nonce)
  | .part nk => Except.ok (XChild.part nk, db, nonce)
end

/-! ## Trees (`immutable.rs`, `mutable.rs`) -/

/-- `ImmutableTree`: root handle, its hash and a version (the node DB handle
is shared and threaded separately). -/
structure ImmTree where
  root : XNode
  hash : List Nat
  version : Nat
  deriving DecidableEq, Repr

/-- `ImmutableTree::new`: the hash is read from the root, which must be
hashed (`expect`, a panic otherwise). -/
def immTreeNew (root : XNode) (version : Nat) : Except Err ImmTree :=
  match root.xhash with
  | some h => .ok ⟨root, h, version⟩
  | none => .error .panicked

/-- `MutableTree`. -/
structure MTree where
  root : Option XNode
  lastSaved : Option ImmTree
  version : Nat
  size : Nat
  db : Db
  deriving DecidableEq, Repr

namespace MTree

/-- `MutableTree::new` over a fresh store. -/
def new : MTree := ⟨none, none, 0, 0, []⟩

/-- `MutableTree::saved_hash`. -/
def savedHash (t : MTree) : List Nat :=
  match t.lastSaved with
  | some ls => ls.hash
  | none => EMPTY_ROOT_HASH

/-- `MutableTree::insert`. -/
def insertKV (t : MTree) (key value : List Nat) : Except Err (MTree × Bool) :=
  match t.root with
  | none => .ok ({ t with root := some (.dleaf key value), size := 1 }, false)
  | some root => do
    let (newRoot, updated) ← recursiveInsert (xcount root + 1) root t.db key value
    if updated then .ok ({ t with root := some newRoot }, true)
    else
      match checkedAddU63 t.size 1 with
      | some s2 => .ok ({ t with root := some newRoot, size := s2 }, false)
      | none => .error .overflow

/-- `MutableTree::remove`. -/
def removeKey (t : MTree) (key : List Nat) : Except Err (MTree × Bool) :=
  match t.root with
  | none => .ok (t, false)
  | some root => do
    let (newRoot, removed) ← recursiveRemove (xcount root + 1) root t.db key
    if removed then
      -- self.size.get().checked_sub(1).and_then(U63::new).unwrap()
      if t.size = 0 then .error .panicked
      else .ok ({ t with root := newRoot, size := t.size - 1 }, true)
    else .ok ({ t with root := newRoot }, false)

/-- `MutableTree::save`: returns the committed version with the new state. -/
def save (t : MTree) : Except Err (Nat × MTree) :=
  match checkedAddU63 t.version 1 with
  | none => .error .overflow
  | some wv =>
    match t.root with
    | none =>
      let (db2, _) := saveOverwritingEmptyRoot t.db wv
      .ok (wv, { t with
        db := db2
        version := wv
        lastSaved := t.lastSaved.map (fun ls => { ls with version := wv }) })
    | some root =>
      match root.xnodeKey with
      | some nk => do
        -- Node::Saved: write a reference root, rebuild last_saved from root
        let (db2, _) := saveOverwritingReferenceRoot t.db wv nk
        let ls ← immTreeNew root wv
        .ok (wv, { t with
          db := db2
          version := wv
          lastSaved := some ls })
      | none => do
        -- Node::Drafted: recursively save, then swap in the saved root
        let (newRoot, db2, _) ← recursiveMakeSavedNodes root t.db wv 0
        let ls ← immTreeNew newRoot wv
        .ok (wv, { t with
          db := db2
          root := some newRoot
          lastSaved := some ls
          version := wv })

/-- `MutableTree::get` (via `Node::get`). -/
def get (t : MTree) (key : List Nat) : Except Err (Nat × Option (List Nat)) :=
  match t.root with
  | none => .ok (0, none)
  | some r => nodeGet (xcount r + 1) r t.db key

end MTree

/-! ## Operation sequences -/

/-- One mutating operation on a `MutableTree`. -/
inductive Op where
  | ins (key value : List Nat)
  | del (key : List Nat)
  | sav
  deriving DecidableEq, Repr

/-- Run a sequence of operations from a state. -/
def runOps : List Op → MTree → Except Err MTree
  | [], t => .ok t
  | op :: rest, t => do
    let t2 ←
      match op with
      | .ins k v => (MTree.insertKV t k v).map (·.1)
      | .del k => (MTree.removeKey t k).map (·.1)
      | .sav => (MTree.save t).map (·.2)
    runOps rest t2

/-! ## The abstract model: in-order key/value list -/

-- In-order list of the (key, value) pairs stored at the leaves.
mutual
def toModel : XNode → List (List Nat × List Nat)
  | .dleaf k v => [(k, v)]
  | .sleaf k v _ _ _ => [(k, v)]
  | .dinner _ _ _ l r => toModelC l ++ toModelC r
  | .sinner _ _ _ l r _ _ _ _ _ => toModelC l ++ toModelC r

def toModelC : XChild → List (List Nat × List Nat)
  | .full n => toModel n
  | .part _ => []
end

/-! ## Concrete runs used by the claims about `make_balanced`'s sizes -/

/-- Inserting `a, b, c, d` (one-byte ASCII keys, values equal to keys) —
the `rr_heavy` integration-test input, which triggers one left rotation. -/
def rrOps : List Op :=
  [.ins [97] [97], .ins [98] [98], .ins [99] [99], .ins [100] [100]]

/-- The same four keys in descending order (the `ll_heavy` test input). -/
def llOps : List Op :=
  [.ins [100] [100], .ins [99] [99], .ins [98] [98], .ins [97] [97]]

/-- The tree the embedded code builds from `rrOps`: after the rotation the
root carries size 6 and its left child size 3, though only four keys are
stored. -/
def rrTree : XNode :=
  .dinner [99] 2 6
    (.full (.dinner [98] 1 3 (.full (.dleaf [97] [97])) (.full (.dleaf [98] [98]))))
    (.full (.dinner [100] 1 2 (.full (.dleaf [99] [99])) (.full (.dleaf [100] [100]))))

/-- The tree built from `llOps`: same shape, but the inflated size lands on
the other child. -/
def llTree : XNode :=
  .dinner [99] 2 6
    (.full (.dinner [98] 1 2 (.full (.dleaf [97] [97])) (.full (.dleaf [98] [98]))))
    (.full (.dinner [100] 1 3 (.full (.dleaf [99] [99])) (.full (.dleaf [100] [100]))))

/-- The full mutable-tree state reached by `rrOps` from a fresh tree. -/
def rrState : MTree := ⟨some rrTree, none, 0, 4, []⟩

/-- The size of a fully materialized child. -/
def xsizeC : XChild → Option Nat
  | .full n => some n.xsize
  | .part _ => none

/-! ## Definitions supporting the node-DB classification claims -/

/-- Classification as the spec's claim describes it (nonce first, then
leading byte): a record fetched at a nonce other than 1 would have to be a
serialized node, whatever its first byte; only at nonce 1 would the leading
byte be consulted. -/
def makeFetchedNodeClaimed (nonce b : Nat) (rest : List Nat) : Except Err FetchedNode :=
  if nonce = 1 then makeFetchedNode b rest
  else (deserializeNode (b :: rest)).map (fun p => .deserialized p.1)

/-- A store holding, at node key `(1, 2)`, a value whose first byte is
`0x73` — byte-identical to a reference-root record — used to separate the
two classification orders. -/
def c4db : Db := [(makeNdbKey ⟨1, 2⟩, makeNdbKey ⟨1, 1⟩)]

/-- A store holding an empty-root marker at node key `(1, 1)`. -/
def c7db : Db := [(makeNdbKey ⟨1, 1⟩, [255])]

/-- A saved leaf used as a concrete `Saved`-root state. -/
def c5root : XNode := .sleaf [10] [20] 1 (List.replicate 32 7) 1

/-- A reachable-shaped state whose root is Saved: the snapshot hash equals
the root's stored hash and the store holds the root's record. -/
def c5state : MTree :=
  ⟨some c5root, some ⟨c5root, List.replicate 32 7, 1⟩, 1, 1,
   [(makeNdbKey ⟨1, 1⟩, leafSerialize [10] [20])]⟩

/-- The operation sequence insert, save, remove-the-only-key, save. -/
def c3ops : List Op := [.ins [107] [118], .sav, .del [107], .sav]

/-- The leaf saved by the first save of `c3ops` (key `k`, value `v`,
version 1, nonce 1). -/
def c3saved : XNode := .sleaf [107] [118] 1 (leafHash [107] [118] 1) 1

/-- The state after `c3ops`: no root, size 0, version 2, but `last_saved`
still carries the version-1 leaf's hash (the empty save only bumped the
snapshot's version), and the store holds the leaf record plus the version-2
empty-root marker. -/
def c3state : MTree :=
  ⟨none, some ⟨c3saved, leafHash [107] [118] 1, 2⟩, 2, 0,
   [(makeNdbKey ⟨1, 1⟩, leafSerialize [107] [118]), (rootNdbKey 2, [255])]⟩

/-- `Node::version` through the saved stages (`None` for drafted nodes). -/
def XNode.xversion : XNode → Option Nat
  | .sleaf _ _ v _ _ => some v
  | .sinner _ _ _ _ _ v _ _ _ _ => some v
  | _ => none

/-! ## Definitions for the in-memory functional-correctness claim -/

-- The separator keys of a subtree: the keys carried by its inner nodes
-- (unresolved `Part` children contribute nothing).
mutual
def sepKeys : XNode → List (List Nat)
  | .dleaf _ _ => []
  | .sleaf _ _ _ _ _ => []
  | .dinner k _ _ l r => k :: (sepKeysC l ++ sepKeysC r)
  | .sinner k _ _ l r _ _ _ _ _ => k :: (sepKeysC l ++ sepKeysC r)

def sepKeysC : XChild → List (List Nat)
  | .full n => sepKeys n
  | .part _ => []
end

/-- The keys stored at the leaves of a subtree, in order. -/
def leafKeys (t : XNode) : List (List Nat) := (toModel t).map Prod.fst

/-- The invariant of in-memory trees reachable without a save: every node is
drafted with fully materialized children; at an inner node every key of the
left subtree (leaf or separator) is strictly below the node's key, the leaf
keys of the right subtree are at or above it and its separator keys strictly
above it; and the node's size is the children's sum possibly plus one (the
`make_balanced` inflation), within the `U63` domain. -/
inductive Good : XNode → Prop where
  | leaf (k v : List Nat) : Good (.dleaf k v)
  | inner (k : List Nat) (h s : Nat) (l r : XNode) :
      Good l → Good r →
      (∀ x ∈ leafKeys l, byteLt x k = true) →
      (∀ y ∈ sepKeys l, byteLt y k = true) →
      (∀ x ∈ leafKeys r, byteLt x k = false) →
      (∀ y ∈ sepKeys r, byteLt k y = true) →
      s ≤ U63MAX →
      (s = l.xsize + r.xsize ∨ s = l.xsize + r.xsize + 1) →
      Good (.dinner k h s (.full l) (.full r))

/-- The root invariant of a mutable tree that has not saved: absent, or a
`Good` in-memory tree. -/
def GoodRoot : Option XNode → Prop
  | none => True
  | some r => Good r

/-- The in-order model of a whole mutable-tree state. -/
def stateModel (t : MTree) : List (List Nat × List Nat) :=
  match t.root with
  | none => []
  | some r => toModel r

/-- First-match lookup in the in-order model. -/
def lookupA : List (List Nat × List Nat) → List Nat → Option (List Nat)
  | [], _ => none
  | (k, v) :: rest, key => if k = key then some v else lookupA rest key

/-- Ordered insert-or-replace in the in-order model. -/
def minsert : List (List Nat × List Nat) → List Nat → List Nat → List (List Nat × List Nat)
  | [], k, v => [(k, v)]
  | (k0, v0) :: rest, k, v =>
    if k = k0 then (k, v) :: rest
    else if byteLt k k0 then (k, v) :: (k0, v0) :: rest
    else (k0, v0) :: minsert rest k v

/-- Removal of the first occurrence of a key in the in-order model. -/
def mdelete : List (List Nat × List Nat) → List Nat → List (List Nat × List Nat)
  | [], _ => []
  | (k0, v0) :: rest, k => if k0 = k then rest else (k0, v0) :: mdelete rest k

/-- The value the last pending write of an operation sequence leaves at a
key: the claim's "value of the last insert of k, absent if never inserted
or removed after its last insert". -/
def lastWrite (ops : List Op) (k : List Nat) : Option (List Nat) :=
  ops.foldl
    (fun acc op =>
      match op with
      | .ins k2 v => if k2 = k then some v else acc
      | .del k2 => if k2 = k then none else acc
      | .sav => acc)
    none

/-- Well-formedness of a Saved node as the save pipeline produces it: keys
and values non-empty and of `u64`-expressible length, integers in their
`U7`/`U31`/`U63` domains (an inner node's height is at least 1), the hash
32 bytes, and a leaf's hash the one `to_hashed` computes. -/
def SavedSerializableWf (n : XNode) : Prop :=
  match n with
  | .sleaf k v ver h _ =>
    k ≠ [] ∧ v ≠ [] ∧ k.length < 128 ^ 10 ∧ v.length < 128 ^ 10 ∧
      ver ≤ U63MAX ∧ h = leafHash k v ver
  | .sinner k h s _ _ ver hash _ lnk rnk =>
    k ≠ [] ∧ k.length < 128 ^ 10 ∧ 1 ≤ h ∧ h ≤ U7MAX ∧ s ≤ U63MAX ∧ ver ≤ U63MAX ∧
      hash.length = 32 ∧ lnk.version ≤ U63MAX ∧ lnk.nonce ≤ U31MAX ∧
      rnk.version ≤ U63MAX ∧ rnk.nonce ≤ U31MAX
  | _ => False

/-! # Claim theorems -/

/-- Looking up the freshly inserted key finds the freshly inserted value. -/
theorem dbGet_dbInsert_self (db : Db) (k v : List Nat) :
    dbGet (dbInsert db k v).1 k = some v := by
  induction db with
  | nil => simp [dbInsert, dbGet]
  | cons p rest ih =>
    obtain ⟨k0, v0⟩ := p
    by_cases h : k0 = k
    · simp [dbInsert, dbGet, h]
    · simp [dbInsert, dbGet, h, ih]

/-- C2: the claim states that in every reachable tree state each inner node
`n` satisfies `n.size = n.left.size + n.right.size` (with the height and AVL
conditions), and in particular that every inner node synthesized by a
rotation in `make_balanced` has size equal to the sum of its children's
sizes.  Evaluating the code at the failing input `rrOps` (four inserts
triggering one rotation) shows the opposite: the rotation adds an extra `+1`
at each synthesized node, so the root gets size 6 and its left child size 3
while only four keys are stored — `6 ≠ 3 + 2`.  The mirrored input `llOps`
yields the same shape with the inflated size on the other child, so the two
runs — whose saved hashes the repository's own integration tests
(`rr_heavy…`/`ll_heavy…`) require to be equal — hash different size fields. -/
theorem C2_rotation_size_violation :
    runOps rrOps MTree.new = .ok rrState ∧
    rrTree.xsize = 6 ∧ rrTree.xleft.bind xsizeC = some 3 ∧
      rrTree.xright.bind xsizeC = some 2 ∧ rrTree.xsize ≠ 3 + 2 ∧
    runOps llOps MTree.new = .ok ⟨some llTree, none, 0, 4, []⟩ ∧
    llTree.xleft.bind xsizeC = some 2 ∧ llTree.xright.bind xsizeC = some 3 ∧
    rrTree ≠ llTree := by decide

/-- C6: the claim states that `get` returns, besides the descent structure,
an index equal to the 0-based in-order position of a present key.  On the
tree reached by `rrOps` the stored keys in order are `a, b, c, d`, so the
position of `c` is 2 — but the code returns index 4, because the descent
adds `node.size − right.size` with the rotation-inflated sizes of C2. -/
theorem C6_index_not_inorder_position :
    runOps rrOps MTree.new = .ok rrState ∧
    MTree.get rrState [99] = .ok (4, some [99]) ∧
    ((toModel rrTree).map Prod.fst).indexOf [99] = 2 ∧ (4 : Nat) ≠ 2 := by decide

/-- C9: for every leaf with key `k` and value `v` hashed at version `ver`,
the Merkle hash is SHA-256 of exactly
`varint(0) ‖ varint(2) ‖ zigzag_varint(ver) ‖ varint(len k) ‖ k ‖ varint(32)
‖ SHA-256(v)`: the key raw and length-prefixed, the value as its 32-byte
digest prefixed by `varint(32)`.  `leafHash` is the embedding of
`LeafNode::to_hashed`'s hasher steps (the constant bytes `[0, 2]`, then the
varint writes); the right-hand side is the spec's concatenation. -/
theorem C9_leaf_hash_format (key value : List Nat) (version : Nat) :
    leafHash key value version =
      sha256 (varint 0 ++ varint 2 ++ varint (zigzag version) ++
        varint key.length ++ key ++ varint 32 ++ sha256 value) := by
  have h0 : varint 0 = [0] := rfl
  have h2 : varint 2 = [2] := rfl
  rw [h0, h2]
  simp [leafHash, serializeHash, List.append_assoc]

/-- C4: the claim states that the node DB classifies a record by checking
`nonce == 1` first and only then the leading byte of the value.  The code's
`make_fetched_node` never consults the nonce: at node key `(1, 2)` (nonce 2)
a value whose first byte is `0x73` is still classified as a reference root,
whereas the claimed order would have to parse it as a serialized node (which
fails with `InvalidInteger`: `0x73` zigzag-decodes to a negative height). -/
theorem C4_counterexample :
    fetchOneNode c4db ⟨1, 2⟩ = .ok (some (.referenceRoot ⟨1, 1⟩)) ∧
    makeFetchedNodeClaimed 2 115 (Sha.beBytes 8 1 ++ Sha.beBytes 4 1) =
      .error .invalidInteger ∧
    (makeFetchedNodeClaimed 2 115 (Sha.beBytes 8 1 ++ Sha.beBytes 4 1)).map some ≠
      fetchOneNode c4db ⟨1, 2⟩ := by decide

/-- C4 amended: the classification is by leading byte only — `0xFF` means
empty root, `0x73` reference root, anything else a serialized node — and the
record's nonce is never consulted: two fetches that find the same value are
classified identically whatever their node keys. -/
theorem C4_amended_leading_byte_only :
    (∀ (db db2 : Db) (nk nk2 : NodeKey) (v : List Nat),
      dbGet db (makeNdbKey nk) = some v → dbGet db2 (makeNdbKey nk2) = some v →
      fetchOneNode db nk = fetchOneNode db2 nk2) ∧
    (∀ rest, makeFetchedNode 255 rest = .ok .emptyRoot) ∧
    (∀ b rest, b ≠ 255 → b ≠ 115 →
      makeFetchedNode b rest =
        (deserializeNode (b :: rest)).map (fun p => .deserialized p.1)) := by
  refine ⟨?_, ?_, ?_⟩
  · intro db db2 nk nk2 v h1 h2
    unfold fetchOneNode
    rw [h1, h2]
  · intro rest
    rfl
  · intro b rest hb1 hb2
    unfold makeFetchedNode
    rw [if_neg hb1, if_neg hb2]

theorem C4_amended_witness :
    fetchOneNode [(makeNdbKey ⟨3, 7⟩, [255])] ⟨3, 7⟩ =
      fetchOneNode [(makeNdbKey ⟨3, 9⟩, [255])] ⟨3, 9⟩ ∧
    makeFetchedNode 255 [9] = .ok .emptyRoot ∧
    makeFetchedNode 4 [] = (deserializeNode [4]).map (fun p => .deserialized p.1) :=
  ⟨C4_amended_leading_byte_only.1 _ _ ⟨3, 7⟩ ⟨3, 9⟩ [255] (by decide) (by decide),
   C4_amended_leading_byte_only.2.1 [9],
   C4_amended_leading_byte_only.2.2 4 [] (by decide) (by decide)⟩

/-- C7: the claim states that when rebalancing materializes a `Part` child
whose node key resolves to an empty-root or reference-root record, the
operation returns `InvalidChild` and never panics.  The code's
`make_balanced` uses a local `extract_full` whose marker arm is
`unreachable!()`: on a store holding an empty-root marker under the child's
node key it panics (modelled `Err.panicked`), which is not `InvalidChild`. -/
theorem C7_counterexample :
    makeBalanced c7db [50] 1 2 (.part ⟨1, 1⟩) (.full (.dleaf [60] [61])) =
      .error .panicked ∧
    Err.panicked ≠ Err.invalidChild := by decide

/-- C7 amended: when a `Part` child of a rebalanced node resolves to an
empty-root or reference-root record, `make_balanced` panics
(`unreachable!()`), while `Child::fetch_full` — the materialization used by
insert, remove and get — is the one that returns `InvalidChild`. -/
theorem C7_amended_marker_panics (db : Db) (nk : NodeKey) (r : XChild)
    (key : List Nat) (h s : Nat) (f : FetchedNode)
    (hf : fetchOneNode db nk = .ok (some f))
    (hm : f = .emptyRoot ∨ ∃ nk2, f = .referenceRoot nk2) :
    makeBalanced db key h s (.part nk) r = .error .panicked ∧
    fetchFull (.part nk) db = .error .invalidChild := by
  have hbef : balanceExtractFull db (.part nk) = .error .panicked := by
    unfold balanceExtractFull
    rcases hm with rfl | ⟨nk2, rfl⟩ <;>
      simp [hf, Bind.bind, Except.bind]
  refine ⟨?_, ?_⟩
  · unfold makeBalanced
    simp [hbef, Bind.bind, Except.bind]
  · unfold fetchFull
    rcases hm with rfl | ⟨nk2, rfl⟩ <;>
      simp [hf, Bind.bind, Except.bind]

theorem C7_amended_witness :
    makeBalanced c7db [50] 3 5 (.part ⟨1, 1⟩) (.full (.dleaf [60] [61])) =
      .error .panicked ∧
    fetchFull (.part ⟨1, 1⟩) c7db = .error .invalidChild :=
  C7_amended_marker_panics c7db ⟨1, 1⟩ (.full (.dleaf [60] [61])) [50] 3 5 .emptyRoot
    (by decide) (Or.inl rfl)

/-- C5: on a tree whose root is Saved (non-empty, no drafted changes since
the last save), a second `save()` advances the version by one, writes a
reference-root record at `(new_version, 1)` whose value is the DB key of the
existing root's node key, and leaves `saved_hash()` unchanged (the snapshot
is rebuilt from the same root, whose stored hash equals the previous
snapshot's). -/
theorem C5_resave_saved_root (t : MTree) (root : XNode) (nk : NodeKey) (ls : ImmTree)
    (hroot : t.root = some root) (hnk : root.xnodeKey = some nk)
    (hv : t.version + 1 ≤ U63MAX)
    (hls : t.lastSaved = some ls) (hh : root.xhash = some ls.hash) :
    ∃ t2, MTree.save t = .ok (t.version + 1, t2) ∧
      t2.version = t.version + 1 ∧
      dbGet t2.db (rootNdbKey (t.version + 1)) = some (makeNdbKey nk) ∧
      t2.savedHash = t.savedHash ∧
      t2.root = t.root := by
  have hca : checkedAddU63 t.version 1 = some (t.version + 1) := by
    simp [checkedAddU63, hv]
  refine ⟨{ t with
      db := (saveOverwritingReferenceRoot t.db (t.version + 1) nk).1
      version := t.version + 1
      lastSaved := some ⟨root, ls.hash, t.version + 1⟩ }, ?_, rfl, ?_, ?_, hroot.symm ▸ rfl⟩
  · simp only [MTree.save, hca, hroot, hnk, immTreeNew, hh, Bind.bind, Except.bind]
  · exact dbGet_dbInsert_self ..
  · simp [MTree.savedHash, hls]

/-- Inversion for a successful `Except` bind. -/
theorem except_bind_ok {α β : Type} {x : Except Err α} {f : α → Except Err β} {b : β}
    (h : x >>= f = .ok b) : ∃ a, x = .ok a ∧ f a = .ok b := by
  cases x with
  | error e => exact absurd h (by simp [Bind.bind, Except.bind])
  | ok a => exact ⟨a, rfl, by simpa [Bind.bind, Except.bind] using h⟩

/-- The root produced by `recursive_make_saved_nodes` is Saved at the
working version: its version field is the `version` argument and it carries
a hash. -/
theorem rms_root_version (d : XNode) (db : Db) (v n : Nat) (sn : XNode) (db2 : Db) (n2 : Nat)
    (h : recursiveMakeSavedNodes d db v n = .ok (sn, db2, n2)) :
    sn.xversion = some v ∧ sn.xhash.isSome := by
  cases d with
  | dleaf k val =>
    unfold recursiveMakeSavedNodes at h
    simp only [Bind.bind, Except.bind] at h
    repeat' split at h
    all_goals try obtain ⟨rfl, -, -⟩ := h
    all_goals simp_all [XNode.xversion, XNode.xhash]
  | sleaf k val ver hh nn =>
    unfold recursiveMakeSavedNodes at h
    simp only [Bind.bind, Except.bind] at h
    repeat' split at h
    all_goals simp_all
  | sinner k hh s l r ver hs nn lnk rnk =>
    unfold recursiveMakeSavedNodes at h
    simp only [Bind.bind, Except.bind] at h
    repeat' split at h
    all_goals simp_all
  | dinner k hh s l r =>
    unfold recursiveMakeSavedNodes at h
    split at h
    · exact absurd h (by simp)
    · obtain ⟨⟨lc2, dbl, nl⟩, -, h2⟩ := except_bind_ok h
      obtain ⟨⟨rc2, dbr, nr⟩, -, h3⟩ := except_bind_ok h2
      simp only [] at h3
      repeat' split at h3
      all_goals simp only [Bind.bind, Except.bind] at h3
      all_goals try simp_all
      all_goals repeat' split at h3
      all_goals try simp_all
      all_goals obtain ⟨rfl, -, -⟩ := h3
      all_goals simp [XNode.xversion, XNode.xhash]

set_option maxRecDepth 100000 in
/-- C3: the claim states that after any successful `save()`,
`saved_hash()` equals the empty-tree hash if and only if the tree holds no
keys — in particular along insert, save, remove-all-keys, save.  Evaluating
that very sequence refutes it: the second (empty) save only bumps the kept
snapshot's version, so `saved_hash()` still returns the version-1 leaf hash
while the tree holds no keys. -/
theorem C3_counterexample :
    runOps c3ops MTree.new = .ok c3state ∧
    c3state.root = none ∧ c3state.size = 0 ∧
    c3state.savedHash ≠ EMPTY_ROOT_HASH := by decide

/-- C3 amended: after `save()`, `saved_hash()` is: unchanged when the tree
is empty (hence the empty-tree hash only when nothing non-empty was ever
saved); the already-stored root hash when the root is Saved; and the hash
of the newly saved root — a Saved node at the newly assigned version — when
the root is Drafted. -/
theorem C3_amended_saved_hash_cases (t : MTree) (hv : t.version + 1 ≤ U63MAX) :
    (t.root = none → ∃ t2, MTree.save t = .ok (t.version + 1, t2) ∧
      t2.savedHash = t.savedHash ∧ t2.root = none) ∧
    (∀ root h, t.root = some root → root.xnodeKey.isSome → root.xhash = some h →
      ∃ t2, MTree.save t = .ok (t.version + 1, t2) ∧ t2.savedHash = h) ∧
    (∀ root, t.root = some root → root.xnodeKey = none →
      ∀ v2 t2, MTree.save t = .ok (v2, t2) →
        v2 = t.version + 1 ∧ ∃ newRoot, t2.root = some newRoot ∧
          newRoot.xversion = some (t.version + 1) ∧
          newRoot.xhash = some t2.savedHash) := by
  have hca : checkedAddU63 t.version 1 = some (t.version + 1) := by
    simp [checkedAddU63, hv]
  refine ⟨?_, ?_, ?_⟩
  · intro hroot
    refine ⟨{ t with
        db := (saveOverwritingEmptyRoot t.db (t.version + 1)).1
        version := t.version + 1
        lastSaved := t.lastSaved.map (fun ls => { ls with version := t.version + 1 }) },
      ?_, ?_, hroot⟩
    · simp only [MTree.save, hca, hroot]
    · cases hls : t.lastSaved <;> simp [MTree.savedHash, hls]
  · intro root h hroot hnk hh
    obtain ⟨nk, hnk⟩ := Option.isSome_iff_exists.mp hnk
    refine ⟨{ t with
        db := (saveOverwritingReferenceRoot t.db (t.version + 1) nk).1
        version := t.version + 1
        lastSaved := some ⟨root, h, t.version + 1⟩ }, ?_, ?_⟩
    · simp only [MTree.save, hca, hroot, hnk, immTreeNew, hh, Bind.bind, Except.bind]
    · simp [MTree.savedHash]
  · intro root hroot hnk v2 t2 hsave
    simp only [MTree.save, hca, hroot, hnk] at hsave
    obtain ⟨⟨newRoot, dbx, nx⟩, hrms, hrest⟩ := except_bind_ok hsave
    obtain ⟨hver, hhash⟩ := rms_root_version root t.db (t.version + 1) 0 newRoot dbx nx hrms
    obtain ⟨hsome, hh⟩ := Option.isSome_iff_exists.mp hhash
    simp only [immTreeNew, hh, Bind.bind, Except.bind] at hrest
    obtain ⟨hv2, ht2⟩ := Prod.mk.injEq .. ▸ Except.ok.inj hrest
    subst ht2
    exact ⟨hv2.symm, newRoot, rfl, hver, by simp [MTree.savedHash, hh]⟩

theorem C3_amended_witness :
    ∃ t2, MTree.save MTree.new = .ok (1, t2) ∧
      t2.savedHash = MTree.new.savedHash ∧ t2.root = none :=
  (C3_amended_saved_hash_cases MTree.new (by decide)).1 rfl

/-- The zigzag varint of any `U7` height starts with an even byte. -/
theorem varint_zigzag_head_even :
    ∀ h : Nat, h ≤ U7MAX → varint (zigzag h) ≠ [] ∧ (varint (zigzag h)).headI % 2 = 0 := by
  decide

/-- C10: the first byte of any Saved node's serialized record is even (it is
the first byte of the zigzag varint of the non-negative height, whose
low-order sign bit is 0), hence never `0xFF` or `0x73`; consequently the
leading-byte classification of node-DB values always takes the
serialized-node branch on such a record, at any nonce. -/
theorem C10_node_record_first_byte_even (n : XNode) (hk : n.xnodeKey.isSome)
    (hh : n.xheight ≤ U7MAX) (bz : List Nat) (hbz : serializeSaved n = some bz) :
    bz ≠ [] ∧ bz.headI % 2 = 0 ∧ bz.headI ≠ 255 ∧ bz.headI ≠ 115 ∧
    makeFetchedNode bz.headI bz.tail ≠ .ok .emptyRoot ∧
    (∀ nk, makeFetchedNode bz.headI bz.tail ≠ .ok (.referenceRoot nk)) ∧
    makeFetchedNode bz.headI bz.tail =
      (deserializeNode (bz.headI :: bz.tail)).map (fun p => .deserialized p.1) := by
  have main : bz ≠ [] ∧ bz.headI % 2 = 0 := by
    cases n with
    | dleaf k v => simp [XNode.xnodeKey] at hk
    | dinner k h s l r => simp [XNode.xnodeKey] at hk
    | sleaf k v ver hs nn =>
      have : bz = leafSerialize k v := by
        simpa [serializeSaved] using hbz.symm
      subst this
      simp [leafSerialize]
    | sinner k h s l r ver hs nn lnk rnk =>
      have hbz2 : bz = innerSerialize h s k hs lnk rnk := by
        simpa [serializeSaved] using hbz.symm
      subst hbz2
      have hx := varint_zigzag_head_even h (by simpa [XNode.xheight] using hh)
      obtain ⟨b, tl, hbt⟩ := List.exists_cons_of_ne_nil hx.1
      rw [innerSerialize, hbt]
      constructor
      · simp
      · have := hx.2
        rw [hbt] at this
        simpa using this
  obtain ⟨hne, heven⟩ := main
  have h255 : bz.headI ≠ 255 := by omega
  have h115 : bz.headI ≠ 115 := by omega
  have hmf : makeFetchedNode bz.headI bz.tail =
      (deserializeNode (bz.headI :: bz.tail)).map (fun p => .deserialized p.1) := by
    rw [makeFetchedNode, if_neg h255, if_neg h115]
  refine ⟨hne, heven, h255, h115, ?_, ?_, hmf⟩
  · rw [hmf]
    cases deserializeNode (bz.headI :: bz.tail) <;> simp [Except.map]
  · intro nk
    rw [hmf]
    cases deserializeNode (bz.headI :: bz.tail) <;> simp [Except.map]

theorem C10_witness :
    innerSerialize 1 2 [5] (List.replicate 32 0) ⟨1, 2⟩ ⟨1, 3⟩ ≠ [] ∧
    (innerSerialize 1 2 [5] (List.replicate 32 0) ⟨1, 2⟩ ⟨1, 3⟩).headI % 2 = 0 ∧
    (innerSerialize 1 2 [5] (List.replicate 32 0) ⟨1, 2⟩ ⟨1, 3⟩).headI ≠ 255 ∧
    (innerSerialize 1 2 [5] (List.replicate 32 0) ⟨1, 2⟩ ⟨1, 3⟩).headI ≠ 115 ∧
    makeFetchedNode (innerSerialize 1 2 [5] (List.replicate 32 0) ⟨1, 2⟩ ⟨1, 3⟩).headI
      (innerSerialize 1 2 [5] (List.replicate 32 0) ⟨1, 2⟩ ⟨1, 3⟩).tail ≠ .ok .emptyRoot ∧
    (∀ nk, makeFetchedNode (innerSerialize 1 2 [5] (List.replicate 32 0) ⟨1, 2⟩ ⟨1, 3⟩).headI
      (innerSerialize 1 2 [5] (List.replicate 32 0) ⟨1, 2⟩ ⟨1, 3⟩).tail ≠
        .ok (.referenceRoot nk)) ∧
    makeFetchedNode (innerSerialize 1 2 [5] (List.replicate 32 0) ⟨1, 2⟩ ⟨1, 3⟩).headI
      (innerSerialize 1 2 [5] (List.replicate 32 0) ⟨1, 2⟩ ⟨1, 3⟩).tail =
      (deserializeNode ((innerSerialize 1 2 [5] (List.replicate 32 0) ⟨1, 2⟩ ⟨1, 3⟩).headI ::
        (innerSerialize 1 2 [5] (List.replicate 32 0) ⟨1, 2⟩ ⟨1, 3⟩).tail)).map
        (fun p => .deserialized p.1) :=
  C10_node_record_first_byte_even
    (.sinner [5] 1 2 (.part ⟨1, 2⟩) (.part ⟨1, 3⟩) 1 (List.replicate 32 0) 1 ⟨1, 2⟩ ⟨1, 3⟩)
    (by decide) (by decide) _ rfl

/-! ## Round-trip lemmas for the wire encoding -/

theorem devarint_varintFuel (fuel : Nat) :
    ∀ n rest, 0 < fuel → n < 128 ^ fuel → devarint (varintFuel fuel n ++ rest) = some (n, rest) := by
  induction fuel with
  | zero => intro n rest hf hn; omega
  | succ f ih =>
    intro n rest hf hn
    by_cases h : n < 128
    · simp [varintFuel, devarint, h]
    · have hfpos : 0 < f := by
        rcases Nat.eq_zero_or_pos f with rfl | hp
        · simp at hn; omega
        · exact hp
      have hrec := ih (n / 128) rest hfpos (by
        rw [pow_succ] at hn
        exact Nat.div_lt_of_lt_mul (by omega))
      simp only [varintFuel, if_neg h, List.cons_append, devarint]
      rw [if_neg (by omega), hrec]
      simp only [Option.some.injEq, Prod.mk.injEq, and_true]
      omega

theorem readVarint_varint (n : Nat) (rest : List Nat) (hn : n < 128 ^ 10) :
    readVarint (varint n ++ rest) = .ok (n, rest) := by
  simp [readVarint, varint, devarint_varintFuel 10 n rest (by norm_num) hn]

theorem readSigned_zigzag (max n : Nat) (rest : List Nat) (hn : n ≤ max)
    (hb : zigzag n < 128 ^ 10) :
    readSigned max (varint (zigzag n) ++ rest) = .ok (n, rest) := by
  rw [readSigned, readVarint_varint (zigzag n) rest hb]
  have hd : dezigzag (zigzag n) = (n : Int) := by
    simp [dezigzag, zigzag, Nat.mul_div_cancel_left]
  simp [Bind.bind, Except.bind, hd, fromSigned, hn, show ¬((n : Int) < 0) by omega]

theorem deserializeBytes_serializeNebz (k rest : List Nat) (hk : k ≠ [])
    (hl : k.length < 128 ^ 10) :
    deserializeBytes (serializeNebz k ++ rest) = .ok (k, rest) := by
  rw [deserializeBytes, serializeNebz, List.append_assoc,
    readVarint_varint k.length (k ++ rest) hl]
  have hlen : ¬(k ++ rest).length < k.length := by simp
  simp [Bind.bind, Except.bind, List.length_eq_zero.not.mpr hk, hlen,
    List.take_left, List.drop_left]

theorem deserializeHash_serializeHash (h rest : List Nat) (hl : h.length = 32) :
    deserializeHash (serializeHash h ++ rest) = .ok (h, rest) := by
  rw [deserializeHash, serializeHash, List.append_assoc,
    readVarint_varint 32 (h ++ rest) (by norm_num)]
  have hlen : ¬(h ++ rest).length < 32 := by simp [hl]
  have ht : (h ++ rest).take 32 = h := by rw [← hl]; exact List.take_left ..
  have hd : (h ++ rest).drop 32 = rest := by rw [← hl]; exact List.drop_left ..
  simp only [Bind.bind, Except.bind, hlen, ht, hd]
  simp

theorem nkDeserialize_nkSerialize (nk : NodeKey) (rest : List Nat)
    (hv : nk.version ≤ U63MAX) (hn : nk.nonce ≤ U31MAX) :
    nkDeserialize (nkSerialize nk ++ rest) = .ok (nk, rest) := by
  have hbv : zigzag nk.version < 128 ^ 10 := by
    have : (128 : Nat) ^ 10 = 1180591620717411303424 := by norm_num
    simp only [zigzag, U63MAX] at *
    omega
  have hbn : zigzag nk.nonce < 128 ^ 10 := by
    have : (128 : Nat) ^ 10 = 1180591620717411303424 := by norm_num
    simp only [zigzag, U31MAX, U63MAX] at *
    omega
  rw [nkDeserialize, nkSerialize, List.append_assoc,
    readSigned_zigzag U63MAX nk.version _ hv hbv]
  simp [Bind.bind, Except.bind, readSigned_zigzag U31MAX nk.nonce rest hn hbn]

/-- C8: for every well-formed Saved node (leaf or inner), deserializing its
serialization succeeds consuming exactly the record; rebuilding the Saved
node at the original node key re-serializes to byte-identical output; and
the rebuilt node's hash — recomputed by `to_hashed` for a leaf, the stored
hash for an inner node — equals the original stored hash. -/
theorem C8_serialize_roundtrip (n : XNode) (hwf : SavedSerializableWf n)
    (bz : List Nat) (hser : serializeSaved n = some bz)
    (nk : NodeKey) (hnk : n.xnodeKey = some nk) :
    ∃ d, deserializeNode bz = .ok (d, []) ∧
      serializeSaved (intoSavedChecked d nk) = some bz ∧
      (intoSavedChecked d nk).xhash = n.xhash := by
  cases n with
  | dleaf k v => exact absurd hwf (by simp [SavedSerializableWf])
  | dinner k h s l r => exact absurd hwf (by simp [SavedSerializableWf])
  | sleaf k v ver h nn =>
    obtain ⟨hk, hv, hkl, hvl, hver, hh⟩ := hwf
    obtain rfl : bz = leafSerialize k v := by simpa [serializeSaved] using hser.symm
    obtain rfl : nk = ⟨ver, nn⟩ := by simpa [XNode.xnodeKey] using hnk.symm
    refine ⟨.leaf k v, ?_, by simp [intoSavedChecked, serializeSaved], ?_⟩
    · have h02 : leafSerialize k v =
          varint (zigzag 0) ++ (varint (zigzag 1) ++ (serializeNebz k ++ serializeNebz v)) := rfl
      rw [deserializeNode, h02,
        readSigned_zigzag U7MAX 0 _ (by norm_num [U7MAX]) (by norm_num [zigzag])]
      simp only [Bind.bind, Except.bind]
      rw [readSigned_zigzag U63MAX 1 _ (by norm_num [U63MAX]) (by norm_num [zigzag])]
      simp only []
      rw [deserializeBytes_serializeNebz k _ hk hkl]
      simp only [if_pos rfl]
      have : serializeNebz v = serializeNebz v ++ [] := by simp
      rw [this, deserializeBytes_serializeNebz v [] hv hvl]
      simp
    · simp [intoSavedChecked, XNode.xhash, hh]
  | sinner k h s l r ver hash nn lnk rnk =>
    obtain ⟨hk, hkl, h1, h7, hs, hver, hhl, hlv, hln, hrv, hrn⟩ := hwf
    obtain rfl : bz = innerSerialize h s k hash lnk rnk := by
      simpa [serializeSaved] using hser.symm
    obtain rfl : nk = ⟨ver, nn⟩ := by simpa [XNode.xnodeKey] using hnk.symm
    refine ⟨.inner k h s hash lnk rnk, ?_, by simp [intoSavedChecked, serializeSaved], ?_⟩
    · have hb7 : zigzag h < 128 ^ 10 := by simp only [zigzag, U7MAX] at *; omega
      have hb63 : zigzag s < 128 ^ 10 := by
        have : (128 : Nat) ^ 10 = 1180591620717411303424 := by norm_num
        simp only [zigzag, U63MAX] at *
        omega
      rw [deserializeNode, innerSerialize, List.append_assoc, List.append_assoc,
        List.append_assoc, List.append_assoc, List.append_assoc,
        readSigned_zigzag U7MAX h _ h7 hb7]
      simp only [Bind.bind, Except.bind]
      rw [readSigned_zigzag U63MAX s _ hs hb63]
      simp only []
      rw [deserializeBytes_serializeNebz k _ hk hkl]
      simp only [if_neg (by omega : ¬h = 0)]
      rw [deserializeHash_serializeHash hash _ hhl]
      simp only []
      have hv0 : varint 0 = [0] := rfl
      rw [hv0]
      simp only [List.cons_append, readVarint, devarint, List.nil_append]
      rw [if_pos (by norm_num)]
      simp only [if_neg (by simp : ¬(0 : Nat) ≠ 0), List.append_eq, List.nil_append]
      rw [nkDeserialize_nkSerialize lnk _ hlv hln]
      simp only []
      have : nkSerialize rnk = nkSerialize rnk ++ [] := by simp
      rw [this, nkDeserialize_nkSerialize rnk [] hrv hrn]
    · simp [intoSavedChecked, XNode.xhash]

theorem C8_witness :
    ∃ d, deserializeNode (leafSerialize [8] [9]) = .ok (d, []) ∧
      serializeSaved (intoSavedChecked d ⟨1, 1⟩) = some (leafSerialize [8] [9]) ∧
      (intoSavedChecked d ⟨1, 1⟩).xhash =
        (XNode.sleaf [8] [9] 1 (leafHash [8] [9] 1) 1).xhash :=
  C8_serialize_roundtrip (.sleaf [8] [9] 1 (leafHash [8] [9] 1) 1)
    (by refine ⟨by decide, by decide, by decide, by decide, by decide, rfl⟩)
    (leafSerialize [8] [9]) rfl ⟨1, 1⟩ rfl

theorem C5_witness :
    ∃ t2, MTree.save c5state = .ok (2, t2) ∧ t2.version = 2 ∧
      dbGet t2.db (rootNdbKey 2) = some (makeNdbKey ⟨1, 1⟩) ∧
      t2.savedHash = c5state.savedHash ∧ t2.root = c5state.root :=
  C5_resave_saved_root c5state c5root ⟨1, 1⟩ ⟨c5root, List.replicate 32 7, 1⟩
    rfl rfl (by decide) rfl rfl

/-! ## The lexicographic byte order -/

theorem byteLt_irrefl (a : List Nat) : byteLt a a = false := by
  induction a with
  | nil => rfl
  | cons x xs ih => simp [byteLt, ih]

theorem byteLt_trans {a b c : List Nat} (h1 : byteLt a b = true) (h2 : byteLt b c = true) :
    byteLt a c = true := by
  induction a generalizing b c with
  | nil =>
    cases c with
    | nil => cases b <;> simp [byteLt] at h2
    | cons z zs => simp [byteLt]
  | cons x xs ih =>
    cases b with
    | nil => simp [byteLt] at h1
    | cons y ys =>
      cases c with
      | nil => simp [byteLt] at h2
      | cons z zs =>
        simp only [byteLt] at h1 h2 ⊢
        split at h1
        · split at h2
          · rw [if_pos (by omega)]
          · split at h2
            · cases h2
            · rw [if_pos (by omega)]
        · split at h1
          · cases h1
          · split at h2
            · rw [if_pos (by omega)]
            · split at h2
              · cases h2
              · rw [if_neg (by omega), if_neg (by omega)]
                exact ih h1 h2

theorem byteLt_eq_of_ge_le {a b : List Nat} (h1 : byteLt a b = false) (h2 : byteLt b a = false) :
    a = b := by
  induction a generalizing b with
  | nil =>
    cases b with
    | nil => rfl
    | cons y ys => simp [byteLt] at h1
  | cons x xs ih =>
    cases b with
    | nil => simp [byteLt] at h2
    | cons y ys =>
      simp only [byteLt] at h1 h2
      split at h1
      · cases h1
      · split at h1
        · rw [if_pos (by omega)] at h2
          cases h2
        · rw [if_neg (by omega), if_neg (by omega)] at h2
          have hxy : x = y := by omega
          rw [hxy, ih h1 h2]

theorem byteLt_asymm {a b : List Nat} (h : byteLt a b = true) : byteLt b a = false := by
  cases hba : byteLt b a with
  | false => rfl
  | true =>
    have := byteLt_trans h hba
    rw [byteLt_irrefl] at this
    cases this

theorem byteLt_ne {a b : List Nat} (h : byteLt a b = true) : a ≠ b := by
  intro he
  rw [he, byteLt_irrefl] at h
  cases h

theorem byteLt_le_lt {a b c : List Nat} (h1 : byteLt b a = false) (h2 : byteLt b c = true) :
    byteLt a c = true := by
  cases hac : byteLt a c with
  | true => rfl
  | false =>
    cases hca : byteLt c a with
    | true =>
      have := byteLt_trans h2 hca
      rw [this] at h1
      cases h1
    | false =>
      have he := byteLt_eq_of_ge_le hac hca
      rw [he, h2] at h1
      cases h1

theorem byteLt_lt_le {a b c : List Nat} (h1 : byteLt a b = true) (h2 : byteLt c b = false) :
    byteLt a c = true := by
  cases hac : byteLt a c with
  | true => rfl
  | false =>
    cases hca : byteLt c a with
    | true =>
      have := byteLt_trans hca h1
      rw [this] at h2
      cases h2
    | false =>
      have he := byteLt_eq_of_ge_le hac hca
      rw [he] at h1
      rw [h1] at h2
      cases h2

theorem byteLt_gt_of_ne {a b : List Nat} (h1 : a ≠ b) (h2 : byteLt a b = false) :
    byteLt b a = true := by
  cases hba : byteLt b a with
  | true => rfl
  | false => exact absurd (byteLt_eq_of_ge_le h2 hba) h1

/-! ## The in-order model: lookup, insert, delete -/

theorem lookupA_eq_none {m : List (List Nat × List Nat)} {k : List Nat}
    (h : ∀ p ∈ m, p.1 ≠ k) : lookupA m k = none := by
  induction m with
  | nil => rfl
  | cons p rest ih =>
    obtain ⟨k0, v0⟩ := p
    simp only [lookupA]
    rw [if_neg (h (k0, v0) (List.mem_cons_self _ _))]
    exact ih (fun p hp => h p (List.mem_cons_of_mem _ hp))

theorem lookupA_append_right_none (A : List (List Nat × List Nat))
    {B : List (List Nat × List Nat)} {k : List Nat} (h : lookupA B k = none) :
    lookupA (A ++ B) k = lookupA A k := by
  induction A with
  | nil => simp [lookupA, h]
  | cons p rest ih =>
    obtain ⟨k0, v0⟩ := p
    simp only [List.cons_append, List.append_eq, lookupA, ih]

theorem lookupA_append_left_none (A B : List (List Nat × List Nat)) (k : List Nat) :
    lookupA A k = none → lookupA (A ++ B) k = lookupA B k := by
  induction A with
  | nil => intro _; simp
  | cons p rest ih =>
    obtain ⟨k0, v0⟩ := p
    intro h
    simp only [lookupA] at h
    simp only [List.cons_append, lookupA]
    by_cases hk : k0 = k
    · rw [if_pos hk] at h
      cases h
    · rw [if_neg hk] at h
      rw [if_neg hk]
      exact ih h

theorem lookupA_minsert_self (m : List (List Nat × List Nat)) (k v : List Nat) :
    lookupA (minsert m k v) k = some v := by
  induction m with
  | nil => simp [minsert, lookupA]
  | cons p rest ih =>
    obtain ⟨k0, v0⟩ := p
    simp only [minsert]
    by_cases h1 : k = k0
    · rw [if_pos h1]
      simp [lookupA]
    · rw [if_neg h1]
      by_cases h2 : byteLt k k0 = true
      · rw [if_pos h2]
        simp [lookupA]
      · rw [if_neg h2]
        simp only [lookupA]
        rw [if_neg (fun he => h1 he.symm)]
        exact ih

theorem lookupA_minsert_other (m : List (List Nat × List Nat)) {k key : List Nat}
    (v : List Nat) (h : key ≠ k) :
    lookupA (minsert m k v) key = lookupA m key := by
  induction m with
  | nil =>
    simp only [minsert, lookupA]
    rw [if_neg (fun he => h he.symm)]
  | cons p rest ih =>
    obtain ⟨k0, v0⟩ := p
    simp only [minsert]
    by_cases h1 : k = k0
    · rw [if_pos h1]
      simp only [lookupA]
      rw [if_neg (fun he => h he.symm), if_neg (fun he => h (h1.trans he).symm)]
    · rw [if_neg h1]
      by_cases h2 : byteLt k k0 = true
      · rw [if_pos h2]
        simp only [lookupA]
        rw [if_neg (fun he => h he.symm)]
      · rw [if_neg h2]
        simp only [lookupA]
        by_cases h3 : k0 = key
        · rw [if_pos h3, if_pos h3]
        · rw [if_neg h3, if_neg h3]
          exact ih

theorem mem_minsert {m : List (List Nat × List Nat)} {k v : List Nat}
    {p : List Nat × List Nat} (h : p ∈ minsert m k v) : p ∈ m ∨ p.1 = k := by
  induction m with
  | nil =>
    simp only [minsert, List.mem_singleton] at h
    exact Or.inr (by rw [h])
  | cons q rest ih =>
    obtain ⟨k0, v0⟩ := q
    simp only [minsert] at h
    by_cases h1 : k = k0
    · rw [if_pos h1] at h
      rcases List.mem_cons.mp h with h | h
      · exact Or.inr (by rw [h])
      · exact Or.inl (List.mem_cons_of_mem _ h)
    · rw [if_neg h1] at h
      by_cases h2 : byteLt k k0 = true
      · rw [if_pos h2] at h
        rcases List.mem_cons.mp h with h | h
        · exact Or.inr (by rw [h])
        · exact Or.inl h
      · rw [if_neg h2] at h
        rcases List.mem_cons.mp h with h | h
        · exact Or.inl (by rw [h]; exact List.mem_cons_self _ _)
        · rcases ih h with h | h
          · exact Or.inl (List.mem_cons_of_mem _ h)
          · exact Or.inr h

theorem minsert_append_left (A B : List (List Nat × List Nat)) (k v : List Nat)
    (hB : ∀ p ∈ B, byteLt k p.1 = true) :
    minsert (A ++ B) k v = minsert A k v ++ B := by
  induction A with
  | nil =>
    simp only [List.nil_append]
    cases B with
    | nil => simp [minsert]
    | cons q B2 =>
      obtain ⟨k0, v0⟩ := q
      have hlt := hB (k0, v0) (List.mem_cons_self _ _)
      simp only [minsert]
      rw [if_neg (byteLt_ne hlt), if_pos hlt]
      simp [minsert]
  | cons q A2 ih =>
    obtain ⟨k0, v0⟩ := q
    simp only [List.cons_append, List.append_eq, minsert]
    by_cases h1 : k = k0
    · rw [if_pos h1, if_pos h1]
      simp
    · rw [if_neg h1, if_neg h1]
      by_cases h2 : byteLt k k0 = true
      · rw [if_pos h2, if_pos h2]
        simp
      · rw [if_neg h2, if_neg h2, ih, List.cons_append]

theorem minsert_append_right (A B : List (List Nat × List Nat)) (k v : List Nat) :
    (∀ p ∈ A, byteLt k p.1 = false ∧ p.1 ≠ k) →
    minsert (A ++ B) k v = A ++ minsert B k v := by
  induction A with
  | nil => intro _; simp
  | cons q A2 ih =>
    obtain ⟨k0, v0⟩ := q
    intro hA
    have hq := hA (k0, v0) (List.mem_cons_self _ _)
    simp only [List.cons_append, List.append_eq, minsert]
    rw [if_neg (fun he => hq.2 he.symm), if_neg (by simp [hq.1]),
      ih (fun p hp => hA p (List.mem_cons_of_mem _ hp))]

theorem mem_mdelete {m : List (List Nat × List Nat)} {k : List Nat}
    {p : List Nat × List Nat} (h : p ∈ mdelete m k) : p ∈ m := by
  induction m with
  | nil => cases h
  | cons q rest ih =>
    obtain ⟨k0, v0⟩ := q
    simp only [mdelete] at h
    by_cases h1 : k0 = k
    · rw [if_pos h1] at h
      exact List.mem_cons_of_mem _ h
    · rw [if_neg h1] at h
      rcases List.mem_cons.mp h with h | h
      · exact by rw [h]; exact List.mem_cons_self _ _
      · exact List.mem_cons_of_mem _ (ih h)

theorem lookupA_mdelete_other (m : List (List Nat × List Nat)) {k key : List Nat}
    (h : key ≠ k) : lookupA (mdelete m k) key = lookupA m key := by
  induction m with
  | nil => rfl
  | cons q rest ih =>
    obtain ⟨k0, v0⟩ := q
    simp only [mdelete]
    by_cases h1 : k0 = k
    · rw [if_pos h1]
      simp only [lookupA]
      rw [if_neg (fun he => h (he.symm.trans h1))]
    · rw [if_neg h1]
      simp only [lookupA]
      by_cases h3 : k0 = key
      · rw [if_pos h3, if_pos h3]
      · rw [if_neg h3, if_neg h3]
        exact ih

theorem lookupA_mdelete_self (m : List (List Nat × List Nat)) (k : List Nat) :
    List.Pairwise (fun p q => byteLt p.1 q.1 = true) m →
    lookupA (mdelete m k) k = none := by
  induction m with
  | nil => intro _; rfl
  | cons q rest ih =>
    obtain ⟨k0, v0⟩ := q
    intro hp
    rw [List.pairwise_cons] at hp
    obtain ⟨hall, htail⟩ := hp
    simp only [mdelete]
    by_cases h1 : k0 = k
    · rw [if_pos h1]
      exact lookupA_eq_none (fun p hp => h1 ▸ Ne.symm (byteLt_ne (hall p hp)))
    · rw [if_neg h1]
      simp only [lookupA]
      rw [if_neg h1]
      exact ih htail

theorem mdelete_eq_of_not_mem (m : List (List Nat × List Nat)) (k : List Nat) :
    (∀ p ∈ m, p.1 ≠ k) → mdelete m k = m := by
  induction m with
  | nil => intro _; rfl
  | cons q rest ih =>
    obtain ⟨k0, v0⟩ := q
    intro h
    simp only [mdelete]
    rw [if_neg (h (k0, v0) (List.mem_cons_self _ _)),
      ih (fun p hp => h p (List.mem_cons_of_mem _ hp))]

theorem mdelete_append_left (A B : List (List Nat × List Nat)) (k : List Nat) :
    (∀ p ∈ B, p.1 ≠ k) → mdelete (A ++ B) k = mdelete A k ++ B := by
  induction A with
  | nil =>
    intro h
    simp only [List.nil_append, mdelete]
    exact mdelete_eq_of_not_mem B k h
  | cons q A2 ih =>
    obtain ⟨k0, v0⟩ := q
    intro h
    simp only [List.cons_append, List.append_eq, mdelete]
    by_cases h1 : k0 = k
    · rw [if_pos h1, if_pos h1]
    · rw [if_neg h1, if_neg h1, ih h, List.cons_append]

theorem mdelete_append_right (A B : List (List Nat × List Nat)) (k : List Nat) :
    (∀ p ∈ A, p.1 ≠ k) → mdelete (A ++ B) k = A ++ mdelete B k := by
  induction A with
  | nil => intro _; rfl
  | cons q A2 ih =>
    obtain ⟨k0, v0⟩ := q
    intro h
    simp only [List.cons_append, List.append_eq, mdelete]
    rw [if_neg (h (k0, v0) (List.mem_cons_self _ _)),
      ih (fun p hp => h p (List.mem_cons_of_mem _ hp))]

/-! ## Structural facts about the invariant -/

theorem toModel_inner (k : List Nat) (h s : Nat) (l r : XNode) :
    toModel (.dinner k h s (.full l) (.full r)) = toModel l ++ toModel r := by
  simp [toModel, toModelC]

theorem leafKeys_inner (k : List Nat) (h s : Nat) (l r : XNode) :
    leafKeys (.dinner k h s (.full l) (.full r)) = leafKeys l ++ leafKeys r := by
  simp [leafKeys, toModel_inner]

theorem leafKeys_leaf (k v : List Nat) : leafKeys (.dleaf k v) = [k] := by
  simp [leafKeys, toModel]

theorem sepKeys_inner (k : List Nat) (h s : Nat) (l r : XNode) :
    sepKeys (.dinner k h s (.full l) (.full r)) = k :: (sepKeys l ++ sepKeys r) := by
  simp [sepKeys, sepKeysC]

theorem sepKeys_leaf (k v : List Nat) : sepKeys (.dleaf k v) = [] := by
  simp [sepKeys]

theorem mem_leafKeys {t : XNode} {p : List Nat × List Nat} (hp : p ∈ toModel t) :
    p.1 ∈ leafKeys t :=
  List.mem_map_of_mem _ hp

theorem leafKeys_mem {t : XNode} {y : List Nat} (hy : y ∈ leafKeys t) :
    ∃ v, (y, v) ∈ toModel t := by
  obtain ⟨p, hp, he⟩ := List.mem_map.mp hy
  subst he
  exact ⟨p.2, hp⟩

theorem xcount_pos (t : XNode) : 1 ≤ xcount t := by
  cases t <;> simp [xcount] <;> omega

theorem good_xnodeKey {t : XNode} (hg : Good t) : t.xnodeKey = none := by
  cases hg <;> rfl

theorem withSlotsExtracted_good {t : XNode} (hg : Good t) : withSlotsExtracted t = t := by
  cases hg with
  | leaf k v => rfl
  | inner k h s l r hgl hgr hl1 hl2 hr1 hr2 hsb hsz =>
    simp [withSlotsExtracted, extractSlot, good_xnodeKey hgl, good_xnodeKey hgr]

theorem toModel_sorted {t : XNode} (hg : Good t) :
    List.Pairwise (fun p q => byteLt p.1 q.1 = true) (toModel t) := by
  induction hg with
  | leaf k v => simp [toModel]
  | inner k h s l r hgl hgr hl1 hl2 hr1 hr2 hsb hsz ihl ihr =>
    rw [toModel_inner, List.pairwise_append]
    refine ⟨ihl, ihr, ?_⟩
    intro p hp q hq
    exact byteLt_lt_le (hl1 p.1 (mem_leafKeys hp)) (hr1 q.1 (mem_leafKeys hq))

theorem except_map_ok {α β : Type} {e : Except Err α} {f : α → β} {b : β}
    (h : Except.map f e = .ok b) : ∃ a, e = .ok a ∧ f a = b := by
  cases e with
  | error e2 => simp [Except.map] at h
  | ok a =>
    refine ⟨a, rfl, ?_⟩
    simpa [Except.map] using h

theorem balSize_ok {a b v : Nat} (h : balSize a b = .ok v) :
    v = a + b + 1 ∧ v ≤ U63MAX := by
  unfold balSize at h
  split at h
  · split at h
    · cases h
      exact ⟨rfl, by assumption⟩
    · cases h
  · cases h

theorem byteLt_false_of_lt {x b c : List Nat} (h1 : byteLt x c = false)
    (h2 : byteLt b c = true) : byteLt x b = false := by
  cases hxb : byteLt x b with
  | false => rfl
  | true =>
    have := byteLt_trans hxb h2
    rw [this] at h1
    cases h1

theorem exbind_ok_eq {α β : Type} (a : α) (f : α → Except Err β) :
    ((Except.ok a : Except Err α) >>= f) = f a := rfl

/-! ## `make_balanced` preserves the invariant and the in-order model -/

theorem balance_keep {key : List Nat} {h s : Nat} {l r : XNode}
    (hgl : Good l) (hgr : Good r)
    (h1 : ∀ x ∈ leafKeys l, byteLt x key = true)
    (h2 : ∀ y ∈ sepKeys l, byteLt y key = true)
    (h3 : ∀ x ∈ leafKeys r, byteLt x key = false)
    (h4 : ∀ y ∈ sepKeys r, byteLt key y = true)
    (hsb : s ≤ U63MAX)
    (hsz : s = l.xsize + r.xsize ∨ s = l.xsize + r.xsize + 1) :
    Good (.dinner key h s (.full l) (.full r)) ∧
      toModel (.dinner key h s (.full l) (.full r)) = toModel l ++ toModel r ∧
      ∀ y ∈ sepKeys (.dinner key h s (.full l) (.full r)),
        y = key ∨ y ∈ sepKeys l ∨ y ∈ sepKeys r := by
  refine ⟨Good.inner key h s l r hgl hgr h1 h2 h3 h4 hsb hsz, toModel_inner key h s l r, ?_⟩
  intro y hy
  simp only [sepKeys_inner, List.mem_cons, List.mem_append] at hy
  tauto

theorem rot_ll {key lk : List Nat} {nrh nrs rh2 rs2 : Nat} {ll lr r : XNode}
    (hgll : Good ll) (hglr : Good lr) (hgr : Good r)
    (hl1 : ∀ x ∈ leafKeys ll, byteLt x lk = true)
    (hl2 : ∀ y ∈ sepKeys ll, byteLt y lk = true)
    (hl3 : ∀ x ∈ leafKeys lr, byteLt x lk = false)
    (hl4 : ∀ y ∈ sepKeys lr, byteLt lk y = true)
    (h1r : ∀ x ∈ leafKeys lr, byteLt x key = true)
    (h2r : ∀ y ∈ sepKeys lr, byteLt y key = true)
    (h2k : byteLt lk key = true)
    (h3 : ∀ x ∈ leafKeys r, byteLt x key = false)
    (h4 : ∀ y ∈ sepKeys r, byteLt key y = true)
    (hnrs : nrs = r.xsize + lr.xsize + 1 ∧ nrs ≤ U63MAX)
    (hrs2 : rs2 = ll.xsize + nrs + 1 ∧ rs2 ≤ U63MAX) :
    Good (.dinner lk rh2 rs2 (.full ll)
        (.full (.dinner key nrh nrs (.full lr) (.full r)))) ∧
      toModel (.dinner lk rh2 rs2 (.full ll)
        (.full (.dinner key nrh nrs (.full lr) (.full r)))) =
        (toModel ll ++ toModel lr) ++ toModel r ∧
      ∀ y ∈ sepKeys (.dinner lk rh2 rs2 (.full ll)
        (.full (.dinner key nrh nrs (.full lr) (.full r)))),
        y = key ∨ y ∈ lk :: (sepKeys ll ++ sepKeys lr) ∨ y ∈ sepKeys r := by
  have hgNR : Good (.dinner key nrh nrs (.full lr) (.full r)) :=
    Good.inner key nrh nrs lr r hglr hgr h1r h2r h3 h4 hnrs.2 (Or.inr (by omega))
  refine ⟨?_, ?_, ?_⟩
  · refine Good.inner lk rh2 rs2 ll _ hgll hgNR hl1 hl2 ?_ ?_ hrs2.2
      (Or.inr (show rs2 = ll.xsize + nrs + 1 by omega))
    · intro x hx
      rw [leafKeys_inner] at hx
      rcases List.mem_append.mp hx with hx | hx
      · exact hl3 x hx
      · exact byteLt_false_of_lt (h3 x hx) h2k
    · intro y hy
      rw [sepKeys_inner] at hy
      rcases List.mem_cons.mp hy with rfl | hy
      · exact h2k
      · rcases List.mem_append.mp hy with hy | hy
        · exact hl4 y hy
        · exact byteLt_trans h2k (h4 y hy)
  · simp [toModel_inner, List.append_assoc]
  · intro y hy
    simp only [sepKeys_inner, List.mem_cons, List.mem_append] at hy ⊢
    tauto

theorem rot_lr {key lk lrk : List Nat} {nlh nls nrh nrs rh2 rs2 : Nat}
    {ll lrl lrr r : XNode}
    (hgll : Good ll) (hglrl : Good lrl) (hglrr : Good lrr) (hgr : Good r)
    (hl1 : ∀ x ∈ leafKeys ll, byteLt x lk = true)
    (hl2 : ∀ y ∈ sepKeys ll, byteLt y lk = true)
    (hl3a : ∀ x ∈ leafKeys lrl, byteLt x lk = false)
    (hl4a : ∀ y ∈ sepKeys lrl, byteLt lk y = true)
    (hl4k : byteLt lk lrk = true)
    (hq1 : ∀ x ∈ leafKeys lrl, byteLt x lrk = true)
    (hq2 : ∀ y ∈ sepKeys lrl, byteLt y lrk = true)
    (hq3 : ∀ x ∈ leafKeys lrr, byteLt x lrk = false)
    (hq4 : ∀ y ∈ sepKeys lrr, byteLt lrk y = true)
    (h1c : ∀ x ∈ leafKeys lrr, byteLt x key = true)
    (h2c : ∀ y ∈ sepKeys lrr, byteLt y key = true)
    (h2lrk : byteLt lrk key = true)
    (h3 : ∀ x ∈ leafKeys r, byteLt x key = false)
    (h4 : ∀ y ∈ sepKeys r, byteLt key y = true)
    (hnls : nls = ll.xsize + lrl.xsize + 1 ∧ nls ≤ U63MAX)
    (hnrs : nrs = lrr.xsize + r.xsize + 1 ∧ nrs ≤ U63MAX)
    (hrs2 : rs2 = nls + nrs + 1 ∧ rs2 ≤ U63MAX) :
    Good (.dinner lrk rh2 rs2
        (.full (.dinner lk nlh nls (.full ll) (.full lrl)))
        (.full (.dinner key nrh nrs (.full lrr) (.full r)))) ∧
      toModel (.dinner lrk rh2 rs2
        (.full (.dinner lk nlh nls (.full ll) (.full lrl)))
        (.full (.dinner key nrh nrs (.full lrr) (.full r)))) =
        (toModel ll ++ (toModel lrl ++ toModel lrr)) ++ toModel r ∧
      ∀ y ∈ sepKeys (.dinner lrk rh2 rs2
        (.full (.dinner lk nlh nls (.full ll) (.full lrl)))
        (.full (.dinner key nrh nrs (.full lrr) (.full r)))),
        y = key ∨ y ∈ lk :: (sepKeys ll ++ (lrk :: (sepKeys lrl ++ sepKeys lrr))) ∨
          y ∈ sepKeys r := by
  have hgNL : Good (.dinner lk nlh nls (.full ll) (.full lrl)) :=
    Good.inner lk nlh nls ll lrl hgll hglrl hl1 hl2 hl3a hl4a hnls.2 (Or.inr (by omega))
  have hgNR : Good (.dinner key nrh nrs (.full lrr) (.full r)) :=
    Good.inner key nrh nrs lrr r hglrr hgr h1c h2c h3 h4 hnrs.2 (Or.inr (by omega))
  refine ⟨?_, ?_, ?_⟩
  · refine Good.inner lrk rh2 rs2 _ _ hgNL hgNR ?_ ?_ ?_ ?_ hrs2.2
      (Or.inr (show rs2 = nls + nrs + 1 by omega))
    · intro x hx
      rw [leafKeys_inner] at hx
      rcases List.mem_append.mp hx with hx | hx
      · exact byteLt_trans (hl1 x hx) hl4k
      · exact hq1 x hx
    · intro y hy
      rw [sepKeys_inner] at hy
      rcases List.mem_cons.mp hy with rfl | hy
      · exact hl4k
      · rcases List.mem_append.mp hy with hy | hy
        · exact byteLt_trans (hl2 y hy) hl4k
        · exact hq2 y hy
    · intro x hx
      rw [leafKeys_inner] at hx
      rcases List.mem_append.mp hx with hx | hx
      · exact hq3 x hx
      · exact byteLt_false_of_lt (h3 x hx) h2lrk
    · intro y hy
      rw [sepKeys_inner] at hy
      rcases List.mem_cons.mp hy with rfl | hy
      · exact h2lrk
      · rcases List.mem_append.mp hy with hy | hy
        · exact hq4 y hy
        · exact byteLt_trans h2lrk (h4 y hy)
  · simp [toModel_inner, List.append_assoc]
  · intro y hy
    simp only [sepKeys_inner, List.mem_cons, List.mem_append] at hy ⊢
    tauto

theorem rot_rr {key rk : List Nat} {nlh nls rh2 rs2 : Nat} {l rl rr : XNode}
    (hgl : Good l) (hgrl : Good rl) (hgrr : Good rr)
    (h1 : ∀ x ∈ leafKeys l, byteLt x key = true)
    (h2 : ∀ y ∈ sepKeys l, byteLt y key = true)
    (h3a : ∀ x ∈ leafKeys rl, byteLt x key = false)
    (h4a : ∀ y ∈ sepKeys rl, byteLt key y = true)
    (h4k : byteLt key rk = true)
    (hr1 : ∀ x ∈ leafKeys rl, byteLt x rk = true)
    (hr2 : ∀ y ∈ sepKeys rl, byteLt y rk = true)
    (hr3 : ∀ x ∈ leafKeys rr, byteLt x rk = false)
    (hr4 : ∀ y ∈ sepKeys rr, byteLt rk y = true)
    (hnls : nls = l.xsize + rl.xsize + 1 ∧ nls ≤ U63MAX)
    (hrs2 : rs2 = rr.xsize + nls + 1 ∧ rs2 ≤ U63MAX) :
    Good (.dinner rk rh2 rs2
        (.full (.dinner key nlh nls (.full l) (.full rl))) (.full rr)) ∧
      toModel (.dinner rk rh2 rs2
        (.full (.dinner key nlh nls (.full l) (.full rl))) (.full rr)) =
        toModel l ++ (toModel rl ++ toModel rr) ∧
      ∀ y ∈ sepKeys (.dinner rk rh2 rs2
        (.full (.dinner key nlh nls (.full l) (.full rl))) (.full rr)),
        y = key ∨ y ∈ sepKeys l ∨ y ∈ rk :: (sepKeys rl ++ sepKeys rr) := by
  have hgNL : Good (.dinner key nlh nls (.full l) (.full rl)) :=
    Good.inner key nlh nls l rl hgl hgrl h1 h2 h3a h4a hnls.2 (Or.inr (by omega))
  refine ⟨?_, ?_, ?_⟩
  · refine Good.inner rk rh2 rs2 _ rr hgNL hgrr ?_ ?_ hr3 hr4 hrs2.2
      (Or.inr (show rs2 = nls + rr.xsize + 1 by omega))
    · intro x hx
      rw [leafKeys_inner] at hx
      rcases List.mem_append.mp hx with hx | hx
      · exact byteLt_trans (h1 x hx) h4k
      · exact hr1 x hx
    · intro y hy
      rw [sepKeys_inner] at hy
      rcases List.mem_cons.mp hy with rfl | hy
      · exact h4k
      · rcases List.mem_append.mp hy with hy | hy
        · exact byteLt_trans (h2 y hy) h4k
        · exact hr2 y hy
  · simp [toModel_inner, List.append_assoc]
  · intro y hy
    simp only [sepKeys_inner, List.mem_cons, List.mem_append] at hy ⊢
    tauto

theorem rot_rl {key rk rlk : List Nat} {nlh nls nrh nrs rh2 rs2 : Nat}
    {l rll rlr rr : XNode}
    (hgl : Good l) (hgrll : Good rll) (hgrlr : Good rlr) (hgrr : Good rr)
    (h1 : ∀ x ∈ leafKeys l, byteLt x key = true)
    (h2 : ∀ y ∈ sepKeys l, byteLt y key = true)
    (h3a : ∀ x ∈ leafKeys rll, byteLt x key = false)
    (h4a : ∀ y ∈ sepKeys rll, byteLt key y = true)
    (h4rlk : byteLt key rlk = true)
    (hr1a : ∀ x ∈ leafKeys rlr, byteLt x rk = true)
    (hr2a : ∀ y ∈ sepKeys rlr, byteLt y rk = true)
    (hr2k : byteLt rlk rk = true)
    (hr3 : ∀ x ∈ leafKeys rr, byteLt x rk = false)
    (hr4 : ∀ y ∈ sepKeys rr, byteLt rk y = true)
    (hp1 : ∀ x ∈ leafKeys rll, byteLt x rlk = true)
    (hp2 : ∀ y ∈ sepKeys rll, byteLt y rlk = true)
    (hp3 : ∀ x ∈ leafKeys rlr, byteLt x rlk = false)
    (hp4 : ∀ y ∈ sepKeys rlr, byteLt rlk y = true)
    (hnls : nls = l.xsize + rll.xsize + 1 ∧ nls ≤ U63MAX)
    (hnrs : nrs = rlr.xsize + rr.xsize + 1 ∧ nrs ≤ U63MAX)
    (hrs2 : rs2 = nls + nrs + 1 ∧ rs2 ≤ U63MAX) :
    Good (.dinner rlk rh2 rs2
        (.full (.dinner key nlh nls (.full l) (.full rll)))
        (.full (.dinner rk nrh nrs (.full rlr) (.full rr)))) ∧
      toModel (.dinner rlk rh2 rs2
        (.full (.dinner key nlh nls (.full l) (.full rll)))
        (.full (.dinner rk nrh nrs (.full rlr) (.full rr)))) =
        toModel l ++ ((toModel rll ++ toModel rlr) ++ toModel rr) ∧
      ∀ y ∈ sepKeys (.dinner rlk rh2 rs2
        (.full (.dinner key nlh nls (.full l) (.full rll)))
        (.full (.dinner rk nrh nrs (.full rlr) (.full rr)))),
        y = key ∨ y ∈ sepKeys l ∨
          y ∈ rk :: ((rlk :: (sepKeys rll ++ sepKeys rlr)) ++ sepKeys rr) := by
  have hgNL : Good (.dinner key nlh nls (.full l) (.full rll)) :=
    Good.inner key nlh nls l rll hgl hgrll h1 h2 h3a h4a hnls.2 (Or.inr (by omega))
  have hgNR : Good (.dinner rk nrh nrs (.full rlr) (.full rr)) :=
    Good.inner rk nrh nrs rlr rr hgrlr hgrr hr1a hr2a hr3 hr4 hnrs.2 (Or.inr (by omega))
  refine ⟨?_, ?_, ?_⟩
  · refine Good.inner rlk rh2 rs2 _ _ hgNL hgNR ?_ ?_ ?_ ?_ hrs2.2
      (Or.inr (show rs2 = nls + nrs + 1 by omega))
    · intro x hx
      rw [leafKeys_inner] at hx
      rcases List.mem_append.mp hx with hx | hx
      · exact byteLt_trans (h1 x hx) h4rlk
      · exact hp1 x hx
    · intro y hy
      rw [sepKeys_inner] at hy
      rcases List.mem_cons.mp hy with rfl | hy
      · exact h4rlk
      · rcases List.mem_append.mp hy with hy | hy
        · exact byteLt_trans (h2 y hy) h4rlk
        · exact hp2 y hy
    · intro x hx
      rw [leafKeys_inner] at hx
      rcases List.mem_append.mp hx with hx | hx
      · exact hp3 x hx
      · exact byteLt_false_of_lt (hr3 x hx) hr2k
    · intro y hy
      rw [sepKeys_inner] at hy
      rcases List.mem_cons.mp hy with rfl | hy
      · exact hr2k
      · rcases List.mem_append.mp hy with hy | hy
        · exact hp4 y hy
        · exact byteLt_trans hr2k (hr4 y hy)
  · simp [toModel_inner, List.append_assoc]
  · intro y hy
    simp only [sepKeys_inner, List.mem_cons, List.mem_append] at hy ⊢
    tauto

theorem balance_spec {db : Db} {key : List Nat} {h s : Nat} {l r t : XNode}
    (hgl : Good l) (hgr : Good r)
    (h1 : ∀ x ∈ leafKeys l, byteLt x key = true)
    (h2 : ∀ y ∈ sepKeys l, byteLt y key = true)
    (h3 : ∀ x ∈ leafKeys r, byteLt x key = false)
    (h4 : ∀ y ∈ sepKeys r, byteLt key y = true)
    (hsb : s ≤ U63MAX)
    (hsz : s = l.xsize + r.xsize ∨ s = l.xsize + r.xsize + 1)
    (hb : makeBalanced db key h s (.full l) (.full r) = .ok t) :
    Good t ∧ toModel t = toModel l ++ toModel r ∧
      ∀ y ∈ sepKeys t, y = key ∨ y ∈ sepKeys l ∨ y ∈ sepKeys r := by
  simp only [makeBalanced, balanceExtractFull, exbind_ok_eq] at hb
  split at hb
  · -- already balanced: the node is rebuilt as given
    injection hb with hb
    subst hb
    exact balance_keep hgl hgr h1 h2 h3 h4 hsb hsz
  · split at hb
    · -- left-heavy
      cases hgl with
      | leaf k0 v0 => simp [XNode.xleft, XNode.xright] at hb
      | inner lk lh ls ll lr hgll hglr hl1 hl2 hl3 hl4 hlsb hlsz =>
        rw [leafKeys_inner] at h1
        rw [sepKeys_inner] at h2
        simp only [XNode.xleft, XNode.xright, balanceExtractFull, exbind_ok_eq,
          XNode.xkey] at hb
        split at hb
        · -- left-left: one right rotation
          obtain ⟨nrh, hnrh, hb⟩ := except_bind_ok hb
          obtain ⟨nrs, hnrs, hb⟩ := except_bind_ok hb
          obtain ⟨rh2, hrh2, hb⟩ := except_bind_ok hb
          obtain ⟨rs2, hrs2, hb⟩ := except_bind_ok hb
          injection hb with hb
          subst hb
          have h1r : ∀ x ∈ leafKeys lr, byteLt x key = true :=
            fun x hx => h1 x (List.mem_append_right _ hx)
          have h2k : byteLt lk key = true := h2 lk (List.mem_cons_self _ _)
          have h2r : ∀ y ∈ sepKeys lr, byteLt y key = true :=
            fun y hy => h2 y (List.mem_cons_of_mem _ (List.mem_append_right _ hy))
          rw [toModel_inner, sepKeys_inner]
          exact rot_ll hgll hglr hgr hl1 hl2 hl3 hl4 h1r h2r h2k h3 h4
            (balSize_ok hnrs) (balSize_ok hrs2)
        · -- left-right: double rotation
          cases hglr with
          | leaf k0 v0 => simp [XNode.xleft, XNode.xright] at hb
          | inner lrk lrh lrs lrl lrr hglrl hglrr hq1 hq2 hq3 hq4 hqsb hqsz =>
            rw [leafKeys_inner] at h1 hl3
            rw [sepKeys_inner] at h2 hl4
            simp only [XNode.xleft, XNode.xright, balanceExtractFull, exbind_ok_eq,
              XNode.xkey] at hb
            obtain ⟨nlh, hnlh, hb⟩ := except_bind_ok hb
            obtain ⟨nls, hnls, hb⟩ := except_bind_ok hb
            obtain ⟨nrh, hnrh, hb⟩ := except_bind_ok hb
            obtain ⟨nrs, hnrs, hb⟩ := except_bind_ok hb
            obtain ⟨rh2, hrh2, hb⟩ := except_bind_ok hb
            obtain ⟨rs2, hrs2, hb⟩ := except_bind_ok hb
            injection hb with hb
            subst hb
            have hl3a : ∀ x ∈ leafKeys lrl, byteLt x lk = false :=
              fun x hx => hl3 x (List.mem_append_left _ hx)
            have hl4a : ∀ y ∈ sepKeys lrl, byteLt lk y = true :=
              fun y hy => hl4 y (List.mem_cons_of_mem _ (List.mem_append_left _ hy))
            have hl4k : byteLt lk lrk = true := hl4 lrk (List.mem_cons_self _ _)
            have h1c : ∀ x ∈ leafKeys lrr, byteLt x key = true :=
              fun x hx => h1 x (List.mem_append_right _ (List.mem_append_right _ hx))
            have h2c : ∀ y ∈ sepKeys lrr, byteLt y key = true :=
              fun y hy => h2 y (List.mem_cons_of_mem _ (List.mem_append_right _
                (List.mem_cons_of_mem _ (List.mem_append_right _ hy))))
            have h2lrk : byteLt lrk key = true :=
              h2 lrk (List.mem_cons_of_mem _ (List.mem_append_right _
                (List.mem_cons_self _ _)))
            rw [toModel_inner, toModel_inner, sepKeys_inner, sepKeys_inner]
            exact rot_lr hgll hglrl hglrr hgr hl1 hl2 hl3a hl4a hl4k
              hq1 hq2 hq3 hq4 h1c h2c h2lrk h3 h4
              (balSize_ok hnls) (balSize_ok hnrs) (balSize_ok hrs2)
    · -- right-heavy
      cases hgr with
      | leaf k0 v0 => simp [XNode.xleft, XNode.xright] at hb
      | inner rk rh rs rl rr hgrl hgrr hr1 hr2 hr3 hr4 hrsb hrsz =>
        rw [leafKeys_inner] at h3
        rw [sepKeys_inner] at h4
        simp only [XNode.xleft, XNode.xright, balanceExtractFull, exbind_ok_eq,
          XNode.xkey] at hb
        split at hb
        · -- right-right: one left rotation
          obtain ⟨nlh, hnlh, hb⟩ := except_bind_ok hb
          obtain ⟨nls, hnls, hb⟩ := except_bind_ok hb
          obtain ⟨rh2, hrh2, hb⟩ := except_bind_ok hb
          obtain ⟨rs2, hrs2, hb⟩ := except_bind_ok hb
          injection hb with hb
          subst hb
          have h3a : ∀ x ∈ leafKeys rl, byteLt x key = false :=
            fun x hx => h3 x (List.mem_append_left _ hx)
          have h4a : ∀ y ∈ sepKeys rl, byteLt key y = true :=
            fun y hy => h4 y (List.mem_cons_of_mem _ (List.mem_append_left _ hy))
          have h4k : byteLt key rk = true := h4 rk (List.mem_cons_self _ _)
          rw [toModel_inner, sepKeys_inner]
          exact rot_rr hgl hgrl hgrr h1 h2 h3a h4a h4k hr1 hr2 hr3 hr4
            (balSize_ok hnls) (balSize_ok hrs2)
        · -- right-left: double rotation
          cases hgrl with
          | leaf k0 v0 => simp [XNode.xleft, XNode.xright] at hb
          | inner rlk rlh rls rll rlr hgrll hgrlr hp1 hp2 hp3 hp4 hpsb hpsz =>
            rw [leafKeys_inner] at h3 hr1
            rw [sepKeys_inner] at h4 hr2
            simp only [XNode.xleft, XNode.xright, balanceExtractFull, exbind_ok_eq,
              XNode.xkey] at hb
            obtain ⟨nlh, hnlh, hb⟩ := except_bind_ok hb
            obtain ⟨nls, hnls, hb⟩ := except_bind_ok hb
            obtain ⟨nrh, hnrh, hb⟩ := except_bind_ok hb
            obtain ⟨nrs, hnrs, hb⟩ := except_bind_ok hb
            obtain ⟨rh2, hrh2, hb⟩ := except_bind_ok hb
            obtain ⟨rs2, hrs2, hb⟩ := except_bind_ok hb
            injection hb with hb
            subst hb
            have h3a : ∀ x ∈ leafKeys rll, byteLt x key = false :=
              fun x hx => h3 x (List.mem_append_left _ (List.mem_append_left _ hx))
            have h4a : ∀ y ∈ sepKeys rll, byteLt key y = true :=
              fun y hy => h4 y (List.mem_cons_of_mem _ (List.mem_append_left _
                (List.mem_cons_of_mem _ (List.mem_append_left _ hy))))
            have h4rlk : byteLt key rlk = true :=
              h4 rlk (List.mem_cons_of_mem _ (List.mem_append_left _
                (List.mem_cons_self _ _)))
            have hr1a : ∀ x ∈ leafKeys rlr, byteLt x rk = true :=
              fun x hx => hr1 x (List.mem_append_right _ hx)
            have hr2a : ∀ y ∈ sepKeys rlr, byteLt y rk = true :=
              fun y hy => hr2 y (List.mem_cons_of_mem _ (List.mem_append_right _ hy))
            have hr2k : byteLt rlk rk = true := hr2 rlk (List.mem_cons_self _ _)
            rw [toModel_inner, toModel_inner, sepKeys_inner, sepKeys_inner]
            exact rot_rl hgl hgrll hgrlr hgrr h1 h2 h3a h4a h4rlk
              hr1a hr2a hr2k hr3 hr4 hp1 hp2 hp3 hp4
              (balSize_ok hnls) (balSize_ok hnrs) (balSize_ok hrs2)

/-! ## `Node::get` returns the model lookup on invariant-satisfying trees -/

theorem nodeGet_spec : ∀ (fuel : Nat) {t : XNode} (db : Db) (key : List Nat),
    Good t → xcount t < fuel →
    ∃ i, nodeGet fuel t db key = .ok (i, lookupA (toModel t) key) ∧ i ≤ t.xsize := by
  intro fuel
  induction fuel with
  | zero => intro t db key hg hf; exact absurd hf (Nat.not_lt_zero _)
  | succ fuel ih =>
    intro t db key hg hf
    cases hg with
    | leaf k0 v0 =>
      by_cases hk : key = k0
      · refine ⟨0, ?_, by simp [XNode.xsize]⟩
        simp only [nodeGet, XNode.xvalue, XNode.xkey]
        rw [if_pos hk]
        simp [toModel, lookupA, hk]
      · refine ⟨0, ?_, by simp [XNode.xsize]⟩
        simp only [nodeGet, XNode.xvalue, XNode.xkey]
        rw [if_neg hk]
        simp only [toModel, lookupA]
        rw [if_neg (fun he => hk he.symm)]
    | inner nk nh ns l r hgl hgr hh1 hh2 hh3 hh4 hbnd hrel =>
      have hposl := xcount_pos l
      have hposr := xcount_pos r
      simp only [xcount, xcountC] at hf
      by_cases hk : byteLt key nk = true
      · obtain ⟨i, hEq, hile⟩ := ih db key hgl (by omega)
        have hnone : lookupA (toModel r) key = none := by
          apply lookupA_eq_none
          intro p hp he
          have hfalse := hh3 p.1 (mem_leafKeys hp)
          rw [he, hk] at hfalse
          exact Bool.noConfusion hfalse
        refine ⟨i, ?_, ?_⟩
        · simp only [nodeGet, XNode.xvalue, XNode.xkey, XNode.xleft, fetchFull,
            exbind_ok_eq]
          rw [if_pos hk, hEq, toModel_inner, lookupA_append_right_none _ hnone]
        · have : l.xsize ≤ ns := by rcases hrel with h | h <;> omega
          simp only [XNode.xsize]
          omega
      · have hk2 : byteLt key nk = false := by
          cases h : byteLt key nk with
          | false => rfl
          | true => exact absurd h hk
        obtain ⟨i, hEq, hile⟩ := ih db key hgr (by omega)
        have hrs : r.xsize ≤ ns := by rcases hrel with h | h <;> omega
        have hnone : lookupA (toModel l) key = none := by
          apply lookupA_eq_none
          intro p hp he
          have htrue := hh1 p.1 (mem_leafKeys hp)
          rw [he, hk2] at htrue
          exact Bool.noConfusion htrue
        refine ⟨i + (ns - r.xsize), ?_, ?_⟩
        · simp only [nodeGet, XNode.xvalue, XNode.xkey, XNode.xright, fetchFull,
            exbind_ok_eq]
          rw [if_neg hk, hEq]
          simp only [exbind_ok_eq]
          have hxs : XNode.xsize (.dinner nk nh ns (.full l) (.full r)) = ns := rfl
          rw [hxs]
          rw [if_pos (by omega), toModel_inner,
            lookupA_append_left_none _ _ _ hnone]
        · show i + (ns - r.xsize) ≤ ns
          omega

theorem checkedAddU63_ok {a b s : Nat} (h : checkedAddU63 a b = some s) :
    s = a + b ∧ s ≤ U63MAX := by
  unfold checkedAddU63 at h
  split at h
  · cases h
    exact ⟨rfl, by assumption⟩
  · cases h

/-! ## `recursive_insert` realizes the model insert on invariant trees -/

theorem insert_spec : ∀ (fuel : Nat) {t : XNode} (db : Db) (k v : List Nat)
    {t2 : XNode} {u : Bool}, Good t → xcount t < fuel →
    recursiveInsert fuel t db k v = .ok (t2, u) →
    Good t2 ∧ toModel t2 = minsert (toModel t) k v ∧
      ∀ y ∈ sepKeys t2, y ∈ sepKeys t ∨
        ((y = k ∨ y ∈ leafKeys t) ∧
          ∃ m, byteLt m y = true ∧ (m ∈ leafKeys t ∨ m = k)) := by
  intro fuel
  induction fuel with
  | zero => intro t db k v t2 u hg hf hret; exact absurd hf (Nat.not_lt_zero _)
  | succ fuel ih =>
    intro t db k v t2 u hg hf hret
    cases hg with
    | leaf k0 v0 =>
      unfold recursiveInsert at hret
      rw [if_pos (show XNode.isLeaf (XNode.dleaf k0 v0) = true from rfl)] at hret
      simp only [XNode.xkey, handleLeafInsertCase] at hret
      by_cases hk : k = k0
      · rw [if_pos hk] at hret
        injection hret with hret
        injection hret with hA hB
        subst hA
        subst hB
        refine ⟨Good.leaf k v, ?_, ?_⟩
        · simp only [toModel, minsert]
          rw [if_pos hk]
        · intro y hy
          rw [sepKeys_leaf] at hy
          cases hy
      · by_cases hb2 : byteLt k k0 = true
        · rw [if_neg hk, if_pos hb2] at hret
          injection hret with hret
          injection hret with hA hB
          subst hA
          subst hB
          refine ⟨?_, ?_, ?_⟩
          · refine Good.inner k0 1 2 _ _ (Good.leaf k v) (Good.leaf k0 v0)
              ?_ ?_ ?_ ?_ (by norm_num [U63MAX]) (Or.inl rfl)
            · intro x hx
              rw [leafKeys_leaf, List.mem_singleton] at hx
              subst hx
              exact hb2
            · intro y hy
              rw [sepKeys_leaf] at hy
              cases hy
            · intro x hx
              rw [leafKeys_leaf, List.mem_singleton] at hx
              subst hx
              exact byteLt_irrefl _
            · intro y hy
              rw [sepKeys_leaf] at hy
              cases hy
          · simp only [toModel_inner, toModel, minsert]
            rw [if_neg hk, if_pos hb2]
            rfl
          · intro y hy
            simp only [sepKeys_inner, sepKeys_leaf, List.append_nil, List.mem_cons,
              List.not_mem_nil, or_false] at hy
            subst hy
            right
            refine ⟨Or.inr ?_, k, hb2, Or.inr rfl⟩
            rw [leafKeys_leaf]
            exact List.mem_singleton.mpr rfl
        · have hb3 : byteLt k k0 = false := by
            cases hx : byteLt k k0 with
            | false => rfl
            | true => exact absurd hx hb2
          have hgt : byteLt k0 k = true := byteLt_gt_of_ne hk hb3
          rw [if_neg hk, if_neg hb2] at hret
          injection hret with hret
          injection hret with hA hB
          subst hA
          subst hB
          refine ⟨?_, ?_, ?_⟩
          · refine Good.inner k 1 2 _ _ (Good.leaf k0 v0) (Good.leaf k v)
              ?_ ?_ ?_ ?_ (by norm_num [U63MAX]) (Or.inl rfl)
            · intro x hx
              rw [leafKeys_leaf, List.mem_singleton] at hx
              subst hx
              exact hgt
            · intro y hy
              rw [sepKeys_leaf] at hy
              cases hy
            · intro x hx
              rw [leafKeys_leaf, List.mem_singleton] at hx
              subst hx
              exact byteLt_irrefl _
            · intro y hy
              rw [sepKeys_leaf] at hy
              cases hy
          · simp only [toModel_inner, toModel, minsert]
            rw [if_neg hk, if_neg hb2]
            rfl
          · intro y hy
            simp only [sepKeys_inner, sepKeys_leaf, List.append_nil, List.mem_cons,
              List.not_mem_nil, or_false] at hy
            subst hy
            right
            refine ⟨Or.inl rfl, k0, hgt, Or.inl ?_⟩
            rw [leafKeys_leaf]
            exact List.mem_singleton.mpr rfl
    | inner nk nh ns l r hgl hgr hi1 hi2 hi3 hi4 hbnd hrel =>
      have hposl := xcount_pos l
      have hposr := xcount_pos r
      simp only [xcount, xcountC] at hf
      unfold recursiveInsert at hret
      rw [if_neg ((by simp [XNode.isLeaf]) :
        ¬XNode.isLeaf (XNode.dinner nk nh ns (.full l) (.full r)) = true)] at hret
      simp only [XNode.xleft, XNode.xright, fetchFull, exbind_ok_eq, XNode.xkey] at hret
      by_cases hdir : byteLt k nk = true
      · rw [if_pos hdir] at hret
        obtain ⟨p, hp, hret⟩ := except_bind_ok hret
        obtain ⟨nl, u1⟩ := p
        obtain ⟨hg2, hm2, hs2⟩ := ih db k v hgl (by omega) hp
        simp only [exbind_ok_eq] at hret
        have hleaf2 : ∀ x ∈ leafKeys nl, byteLt x nk = true := by
          intro x hx
          obtain ⟨v2, hv2⟩ := leafKeys_mem hx
          rw [hm2] at hv2
          rcases mem_minsert hv2 with hv2 | hv2
          · exact hi1 x (mem_leafKeys hv2)
          · have hx2 : x = k := hv2
            subst hx2
            exact hdir
        have hsep2 : ∀ y ∈ sepKeys nl, byteLt y nk = true := by
          intro y hy
          rcases hs2 y hy with hy2 | ⟨hy2, m, hm1, hmsrc⟩
          · exact hi2 y hy2
          · rcases hy2 with rfl | hy2
            · exact hdir
            · exact hi1 y hy2
        have hBfact : ∀ p ∈ toModel r, byteLt k p.1 = true := by
          intro q hq
          exact byteLt_lt_le hdir (hi3 q.1 (mem_leafKeys hq))
        have hmap : ∀ y ∈ sepKeys nl,
            y ∈ sepKeys (XNode.dinner nk nh ns (.full l) (.full r)) ∨
              ((y = k ∨ y ∈ leafKeys (XNode.dinner nk nh ns (.full l) (.full r))) ∧
                ∃ m, byteLt m y = true ∧
                  (m ∈ leafKeys (XNode.dinner nk nh ns (.full l) (.full r)) ∨ m = k)) := by
          intro y hy
          rcases hs2 y hy with hold | ⟨hyk, m, hm1, hmsrc⟩
          · left
            rw [sepKeys_inner]
            exact List.mem_cons_of_mem _ (List.mem_append_left _ hold)
          · right
            refine ⟨?_, m, hm1, ?_⟩
            · rcases hyk with rfl | hyk
              · exact Or.inl rfl
              · refine Or.inr ?_
                rw [leafKeys_inner]
                exact List.mem_append_left _ hyk
            · rcases hmsrc with hmsrc | hmsrc
              · refine Or.inl ?_
                rw [leafKeys_inner]
                exact List.mem_append_left _ hmsrc
              · exact Or.inr hmsrc
        split at hret
        · exact absurd hret (by simp)
        · rename_i h2 hsucc
          split at hret
          · exact absurd hret (by simp)
          · rename_i s2 hadd
            obtain ⟨hs2eq, hs2le⟩ := checkedAddU63_ok hadd
            split at hret
            · injection hret with hret
              injection hret with hA hB
              subst hA
              subst hB
              refine ⟨Good.inner nk h2 s2 nl r hg2 hgr hleaf2 hsep2 hi3 hi4
                hs2le (Or.inl hs2eq), ?_, ?_⟩
              · rw [toModel_inner, toModel_inner, hm2,
                  minsert_append_left _ _ _ _ hBfact]
              · intro y hy
                rw [sepKeys_inner] at hy
                rcases List.mem_cons.mp hy with rfl | hy
                · left
                  rw [sepKeys_inner]
                  exact List.mem_cons_self _ _
                · rcases List.mem_append.mp hy with hy | hy
                  · exact hmap y hy
                  · left
                    rw [sepKeys_inner]
                    exact List.mem_cons_of_mem _ (List.mem_append_right _ hy)
            · obtain ⟨t3, hbal, hret⟩ := except_bind_ok hret
              injection hret with hret
              injection hret with hA hB
              subst hA
              subst hB
              obtain ⟨hgt2, hmt2, hst2⟩ := balance_spec hg2 hgr hleaf2 hsep2 hi3 hi4
                hs2le (Or.inl hs2eq) hbal
              refine ⟨hgt2, ?_, ?_⟩
              · rw [hmt2, hm2, toModel_inner, minsert_append_left _ _ _ _ hBfact]
              · intro y hy
                rcases hst2 y hy with rfl | hy2 | hy2
                · left
                  rw [sepKeys_inner]
                  exact List.mem_cons_self _ _
                · exact hmap y hy2
                · left
                  rw [sepKeys_inner]
                  exact List.mem_cons_of_mem _ (List.mem_append_right _ hy2)
      · have hdir2 : byteLt k nk = false := by
          cases hx : byteLt k nk with
          | false => rfl
          | true => exact absurd hx hdir
        rw [if_neg hdir] at hret
        obtain ⟨p, hp, hret⟩ := except_bind_ok hret
        obtain ⟨nr, u1⟩ := p
        obtain ⟨hg2, hm2, hs2⟩ := ih db k v hgr (by omega) hp
        simp only [exbind_ok_eq] at hret
        have hleaf2 : ∀ x ∈ leafKeys nr, byteLt x nk = false := by
          intro x hx
          obtain ⟨v2, hv2⟩ := leafKeys_mem hx
          rw [hm2] at hv2
          rcases mem_minsert hv2 with hv2 | hv2
          · exact hi3 x (mem_leafKeys hv2)
          · have hx2 : x = k := hv2
            subst hx2
            exact hdir2
        have hsep2 : ∀ y ∈ sepKeys nr, byteLt nk y = true := by
          intro y hy
          rcases hs2 y hy with hy2 | ⟨hy2, m, hm1, hmsrc⟩
          · exact hi4 y hy2
          · have hmnk : byteLt m nk = false := by
              rcases hmsrc with hmsrc | hmsrc
              · exact hi3 m hmsrc
              · rw [hmsrc]
                exact hdir2
            exact byteLt_le_lt hmnk hm1
        have hAfact : ∀ p ∈ toModel l, byteLt k p.1 = false ∧ p.1 ≠ k := by
          intro q hq
          have hplt := hi1 q.1 (mem_leafKeys hq)
          constructor
          · cases hkp : byteLt k q.1 with
            | false => rfl
            | true =>
              have hkk := byteLt_trans hkp hplt
              rw [hdir2] at hkk
              exact Bool.noConfusion hkk
          · intro he
            rw [he] at hplt
            rw [hdir2] at hplt
            exact Bool.noConfusion hplt
        have hmap : ∀ y ∈ sepKeys nr,
            y ∈ sepKeys (XNode.dinner nk nh ns (.full l) (.full r)) ∨
              ((y = k ∨ y ∈ leafKeys (XNode.dinner nk nh ns (.full l) (.full r))) ∧
                ∃ m, byteLt m y = true ∧
                  (m ∈ leafKeys (XNode.dinner nk nh ns (.full l) (.full r)) ∨ m = k)) := by
          intro y hy
          rcases hs2 y hy with hold | ⟨hyk, m, hm1, hmsrc⟩
          · left
            rw [sepKeys_inner]
            exact List.mem_cons_of_mem _ (List.mem_append_right _ hold)
          · right
            refine ⟨?_, m, hm1, ?_⟩
            · rcases hyk with rfl | hyk
              · exact Or.inl rfl
              · refine Or.inr ?_
                rw [leafKeys_inner]
                exact List.mem_append_right _ hyk
            · rcases hmsrc with hmsrc | hmsrc
              · refine Or.inl ?_
                rw [leafKeys_inner]
                exact List.mem_append_right _ hmsrc
              · exact Or.inr hmsrc
        split at hret
        · exact absurd hret (by simp)
        · rename_i h2 hsucc
          split at hret
          · exact absurd hret (by simp)
          · rename_i s2 hadd
            obtain ⟨hs2eq, hs2le⟩ := checkedAddU63_ok hadd
            split at hret
            · injection hret with hret
              injection hret with hA hB
              subst hA
              subst hB
              refine ⟨Good.inner nk h2 s2 l nr hgl hg2 hi1 hi2 hleaf2 hsep2
                hs2le (Or.inl hs2eq), ?_, ?_⟩
              · rw [toModel_inner, toModel_inner, hm2,
                  minsert_append_right _ _ _ _ hAfact]
              · intro y hy
                rw [sepKeys_inner] at hy
                rcases List.mem_cons.mp hy with rfl | hy
                · left
                  rw [sepKeys_inner]
                  exact List.mem_cons_self _ _
                · rcases List.mem_append.mp hy with hy | hy
                  · left
                    rw [sepKeys_inner]
                    exact List.mem_cons_of_mem _ (List.mem_append_left _ hy)
                  · exact hmap y hy
            · obtain ⟨t3, hbal, hret⟩ := except_bind_ok hret
              injection hret with hret
              injection hret with hA hB
              subst hA
              subst hB
              obtain ⟨hgt2, hmt2, hst2⟩ := balance_spec hgl hg2 hi1 hi2 hleaf2 hsep2
                hs2le (Or.inl hs2eq) hbal
              refine ⟨hgt2, ?_, ?_⟩
              · rw [hmt2, hm2, toModel_inner, minsert_append_right _ _ _ _ hAfact]
              · intro y hy
                rcases hst2 y hy with rfl | hy2 | hy2
                · left
                  rw [sepKeys_inner]
                  exact List.mem_cons_self _ _
                · left
                  rw [sepKeys_inner]
                  exact List.mem_cons_of_mem _ (List.mem_append_left _ hy2)
                · exact hmap y hy2

/-! ## `recursive_remove` realizes the model delete on invariant trees -/

theorem remove_spec : ∀ (fuel : Nat) {t : XNode} (db : Db) (k : List Nat)
    {res : Option XNode} {rm : Bool}, Good t → xcount t < fuel →
    recursiveRemove fuel t db k = .ok (res, rm) →
    (res = none → mdelete (toModel t) k = []) ∧
    (∀ t3, res = some t3 → Good t3 ∧ toModel t3 = mdelete (toModel t) k ∧
      ∀ y ∈ sepKeys t3, y ∈ sepKeys t) ∧
    (rm = false → mdelete (toModel t) k = toModel t) := by
  intro fuel
  induction fuel with
  | zero => intro t db k res rm hg hf hret; exact absurd hf (Nat.not_lt_zero _)
  | succ fuel ih =>
    intro t db k res rm hg hf hret
    cases hg with
    | leaf k0 v0 =>
      unfold recursiveRemove at hret
      rw [if_pos (show XNode.isLeaf (XNode.dleaf k0 v0) = true from rfl)] at hret
      simp only [XNode.xkey] at hret
      by_cases hk : k0 = k
      · rw [if_pos hk] at hret
        injection hret with hret
        injection hret with hA hB
        subst hA
        subst hB
        refine ⟨?_, ?_, ?_⟩
        · intro _
          simp only [toModel, mdelete]
          rw [if_pos hk]
        · intro t3 h3
          exact absurd h3 (by simp)
        · intro h
          exact absurd h (by simp)
      · rw [if_neg hk] at hret
        injection hret with hret
        injection hret with hA hB
        subst hA
        subst hB
        have hdel : mdelete (toModel (XNode.dleaf k0 v0)) k = toModel (XNode.dleaf k0 v0) := by
          simp only [toModel, mdelete]
          rw [if_neg hk]
        refine ⟨?_, ?_, ?_⟩
        · intro h
          exact absurd h (by simp)
        · intro t3 h3
          injection h3 with h3
          subst h3
          exact ⟨Good.leaf k0 v0, hdel.symm, fun y hy => hy⟩
        · intro _
          exact hdel
    | inner nk nh ns l r hgl hgr hi1 hi2 hi3 hi4 hbnd hrel =>
      have hgnode : Good (XNode.dinner nk nh ns (.full l) (.full r)) :=
        Good.inner nk nh ns l r hgl hgr hi1 hi2 hi3 hi4 hbnd hrel
      have hposl := xcount_pos l
      have hposr := xcount_pos r
      simp only [xcount, xcountC] at hf
      unfold recursiveRemove at hret
      rw [if_neg ((by simp [XNode.isLeaf]) :
        ¬XNode.isLeaf (XNode.dinner nk nh ns (.full l) (.full r)) = true)] at hret
      simp only [XNode.xleft, XNode.xright, fetchFull, exbind_ok_eq, XNode.xkey] at hret
      by_cases hdir : byteLt k nk = true
      · rw [if_pos hdir] at hret
        obtain ⟨p, hp, hret⟩ := except_bind_ok hret
        obtain ⟨nl, rm1⟩ := p
        obtain ⟨hnone_ih, hsome_ih, hfalse_ih⟩ := ih db k hgl (by omega) hp
        simp only [exbind_ok_eq] at hret
        have hknotr : ∀ q ∈ toModel r, q.1 ≠ k := by
          intro q hq he
          have hqk := hi3 q.1 (mem_leafKeys hq)
          rw [he, hdir] at hqk
          exact Bool.noConfusion hqk
        split at hret
        · cases nl with
          | none =>
            simp only [] at hret
            injection hret with hret
            injection hret with hA hB
            subst hA
            subst hB
            have hdelA : mdelete (toModel l) k = [] := hnone_ih rfl
            refine ⟨?_, ?_, ?_⟩
            · intro h
              exact absurd h (by simp)
            · intro t3 h3
              injection h3 with h3
              subst h3
              refine ⟨hgr, ?_, ?_⟩
              · rw [toModel_inner, mdelete_append_left _ _ _ hknotr, hdelA,
                  List.nil_append]
              · intro y hy
                rw [sepKeys_inner]
                exact List.mem_cons_of_mem _ (List.mem_append_right _ hy)
            · intro h
              exact absurd h (by simp)
          | some l2 =>
            simp only [] at hret
            split at hret
            · exact absurd hret (by simp)
            · rename_i h2 hsucc
              split at hret
              · exact absurd hret (by simp)
              · rename_i s2 hadd
                obtain ⟨hs2eq, hs2le⟩ := checkedAddU63_ok hadd
                obtain ⟨t3, hbal, hret⟩ := except_bind_ok hret
                injection hret with hret
                injection hret with hA hB
                subst hA
                subst hB
                obtain ⟨hg2, hm2, hss2⟩ := hsome_ih l2 rfl
                have hleaf2 : ∀ x ∈ leafKeys l2, byteLt x nk = true := by
                  intro x hx
                  obtain ⟨v2, hv2⟩ := leafKeys_mem hx
                  rw [hm2] at hv2
                  exact hi1 x (mem_leafKeys (mem_mdelete hv2))
                have hsep2 : ∀ y ∈ sepKeys l2, byteLt y nk = true :=
                  fun y hy => hi2 y (hss2 y hy)
                obtain ⟨hgt3, hmt3, hst3⟩ := balance_spec hg2 hgr hleaf2 hsep2
                  hi3 hi4 hs2le (Or.inl hs2eq) hbal
                refine ⟨?_, ?_, ?_⟩
                · intro h
                  exact absurd h (by simp)
                · intro t4 h4
                  injection h4 with h4
                  subst h4
                  refine ⟨hgt3, ?_, ?_⟩
                  · rw [hmt3, hm2, toModel_inner, mdelete_append_left _ _ _ hknotr]
                  · intro y hy
                    rcases hst3 y hy with rfl | hy2 | hy2
                    · rw [sepKeys_inner]
                      exact List.mem_cons_self _ _
                    · rw [sepKeys_inner]
                      exact List.mem_cons_of_mem _ (List.mem_append_left _ (hss2 y hy2))
                    · rw [sepKeys_inner]
                      exact List.mem_cons_of_mem _ (List.mem_append_right _ hy2)
                · intro h
                  exact absurd h (by simp)
        · rename_i hrm1
          have hrm1f : rm1 = false := by
            cases rm1 with
            | false => rfl
            | true => exact absurd rfl hrm1
          injection hret with hret
          injection hret with hA hB
          subst hA
          subst hB
          have hdelA : mdelete (toModel l) k = toModel l := hfalse_ih hrm1f
          refine ⟨?_, ?_, ?_⟩
          · intro h
            exact absurd h (by simp)
          · intro t3 h3
            injection h3 with h3
            subst h3
            rw [withSlotsExtracted_good hgnode]
            refine ⟨hgnode, ?_, fun y hy => hy⟩
            rw [toModel_inner, mdelete_append_left _ _ _ hknotr, hdelA]
          · intro _
            rw [toModel_inner, mdelete_append_left _ _ _ hknotr, hdelA]
      · have hdir2 : byteLt k nk = false := by
          cases hx : byteLt k nk with
          | false => rfl
          | true => exact absurd hx hdir
        rw [if_neg hdir] at hret
        obtain ⟨p, hp, hret⟩ := except_bind_ok hret
        obtain ⟨nr, rm1⟩ := p
        obtain ⟨hnone_ih, hsome_ih, hfalse_ih⟩ := ih db k hgr (by omega) hp
        simp only [exbind_ok_eq] at hret
        have hknotl : ∀ q ∈ toModel l, q.1 ≠ k := by
          intro q hq he
          have hqk := hi1 q.1 (mem_leafKeys hq)
          rw [he, hdir2] at hqk
          exact Bool.noConfusion hqk
        split at hret
        · cases nr with
          | none =>
            simp only [] at hret
            injection hret with hret
            injection hret with hA hB
            subst hA
            subst hB
            have hdelB : mdelete (toModel r) k = [] := hnone_ih rfl
            refine ⟨?_, ?_, ?_⟩
            · intro h
              exact absurd h (by simp)
            · intro t3 h3
              injection h3 with h3
              subst h3
              refine ⟨hgl, ?_, ?_⟩
              · rw [toModel_inner, mdelete_append_right _ _ _ hknotl, hdelB,
                  List.append_nil]
              · intro y hy
                rw [sepKeys_inner]
                exact List.mem_cons_of_mem _ (List.mem_append_left _ hy)
            · intro h
              exact absurd h (by simp)
          | some r2 =>
            simp only [] at hret
            split at hret
            · exact absurd hret (by simp)
            · rename_i h2 hsucc
              split at hret
              · exact absurd hret (by simp)
              · rename_i s2 hadd
                obtain ⟨hs2eq, hs2le⟩ := checkedAddU63_ok hadd
                obtain ⟨t3, hbal, hret⟩ := except_bind_ok hret
                injection hret with hret
                injection hret with hA hB
                subst hA
                subst hB
                obtain ⟨hg2, hm2, hss2⟩ := hsome_ih r2 rfl
                have hleaf2 : ∀ x ∈ leafKeys r2, byteLt x nk = false := by
                  intro x hx
                  obtain ⟨v2, hv2⟩ := leafKeys_mem hx
                  rw [hm2] at hv2
                  exact hi3 x (mem_leafKeys (mem_mdelete hv2))
                have hsep2 : ∀ y ∈ sepKeys r2, byteLt nk y = true :=
                  fun y hy => hi4 y (hss2 y hy)
                obtain ⟨hgt3, hmt3, hst3⟩ := balance_spec hgl hg2 hi1 hi2
                  hleaf2 hsep2 hs2le (Or.inl hs2eq) hbal
                refine ⟨?_, ?_, ?_⟩
                · intro h
                  exact absurd h (by simp)
                · intro t4 h4
                  injection h4 with h4
                  subst h4
                  refine ⟨hgt3, ?_, ?_⟩
                  · rw [hmt3, hm2, toModel_inner, mdelete_append_right _ _ _ hknotl]
                  · intro y hy
                    rcases hst3 y hy with rfl | hy2 | hy2
                    · rw [sepKeys_inner]
                      exact List.mem_cons_self _ _
                    · rw [sepKeys_inner]
                      exact List.mem_cons_of_mem _ (List.mem_append_left _ hy2)
                    · rw [sepKeys_inner]
                      exact List.mem_cons_of_mem _ (List.mem_append_right _ (hss2 y hy2))
                · intro h
                  exact absurd h (by simp)
        · rename_i hrm1
          have hrm1f : rm1 = false := by
            cases rm1 with
            | false => rfl
            | true => exact absurd rfl hrm1
          injection hret with hret
          injection hret with hA hB
          subst hA
          subst hB
          have hdelB : mdelete (toModel r) k = toModel r := hfalse_ih hrm1f
          refine ⟨?_, ?_, ?_⟩
          · intro h
            exact absurd h (by simp)
          · intro t3 h3
            injection h3 with h3
            subst h3
            rw [withSlotsExtracted_good hgnode]
            refine ⟨hgnode, ?_, fun y hy => hy⟩
            rw [toModel_inner, mdelete_append_right _ _ _ hknotl, hdelB]
          · intro _
            rw [toModel_inner, mdelete_append_right _ _ _ hknotl, hdelB]

/-! ## The tree-level wrappers preserve the invariant and realize the model -/

theorem insertKV_spec {t : MTree} {k v : List Nat} {t2 : MTree} {u : Bool}
    (hg : GoodRoot t.root) (h : MTree.insertKV t k v = .ok (t2, u)) :
    GoodRoot t2.root ∧ stateModel t2 = minsert (stateModel t) k v := by
  unfold MTree.insertKV at h
  cases hroot : t.root with
  | none =>
    rw [hroot] at h
    simp only [] at h
    injection h with h
    injection h with hA hB
    subst hA
    refine ⟨Good.leaf k v, ?_⟩
    simp only [stateModel, hroot]
    rfl
  | some root =>
    have hgroot : Good root := by
      rw [hroot] at hg
      exact hg
    rw [hroot] at h
    simp only [] at h
    obtain ⟨p, hp, h⟩ := except_bind_ok h
    obtain ⟨newRoot, updated⟩ := p
    obtain ⟨hg2, hm2, hs2⟩ := insert_spec _ t.db k v hgroot (Nat.lt_succ_self _) hp
    simp only [] at h
    split at h
    · injection h with h
      injection h with hA hB
      subst hA
      refine ⟨hg2, ?_⟩
      simp only [stateModel, hroot]
      exact hm2
    · split at h
      · injection h with h
        injection h with hA hB
        subst hA
        refine ⟨hg2, ?_⟩
        simp only [stateModel, hroot]
        exact hm2
      · exact absurd h (by simp)

theorem removeKey_spec {t : MTree} {k : List Nat} {t2 : MTree} {rm : Bool}
    (hg : GoodRoot t.root) (h : MTree.removeKey t k = .ok (t2, rm)) :
    GoodRoot t2.root ∧ stateModel t2 = mdelete (stateModel t) k := by
  unfold MTree.removeKey at h
  cases hroot : t.root with
  | none =>
    rw [hroot] at h
    simp only [] at h
    injection h with h
    injection h with hA hB
    subst hA
    refine ⟨hg, ?_⟩
    simp only [stateModel, hroot]
    rfl
  | some root =>
    have hgroot : Good root := by
      rw [hroot] at hg
      exact hg
    rw [hroot] at h
    simp only [] at h
    obtain ⟨p, hp, h⟩ := except_bind_ok h
    obtain ⟨res, rm1⟩ := p
    obtain ⟨hnone, hsome, _⟩ := remove_spec _ t.db k hgroot (Nat.lt_succ_self _) hp
    simp only [] at h
    split at h
    · split at h
      · exact absurd h (by simp)
      · injection h with h
        injection h with hA hB
        subst hA
        cases res with
        | none =>
          refine ⟨trivial, ?_⟩
          simp only [stateModel, hroot]
          exact (hnone rfl).symm
        | some t3 =>
          obtain ⟨hg3, hm3, _⟩ := hsome t3 rfl
          refine ⟨hg3, ?_⟩
          simp only [stateModel, hroot]
          exact hm3
    · injection h with h
      injection h with hA hB
      subst hA
      cases res with
      | none =>
        refine ⟨trivial, ?_⟩
        simp only [stateModel, hroot]
        exact (hnone rfl).symm
      | some t3 =>
        obtain ⟨hg3, hm3, _⟩ := hsome t3 rfl
        refine ⟨hg3, ?_⟩
        simp only [stateModel, hroot]
        exact hm3

theorem stateModel_sorted {t : MTree} (hg : GoodRoot t.root) :
    List.Pairwise (fun p q => byteLt p.1 q.1 = true) (stateModel t) := by
  cases hroot : t.root with
  | none =>
    simp only [stateModel, hroot]
    exact List.Pairwise.nil
  | some root =>
    simp only [stateModel, hroot]
    rw [hroot] at hg
    exact toModel_sorted hg

/-! ## Running an operation sequence: the pending map is a left fold -/

theorem runOps_lookup : ∀ (ops : List Op) {t t2 : MTree},
    (∀ op ∈ ops, op ≠ Op.sav) → GoodRoot t.root → runOps ops t = .ok t2 →
    GoodRoot t2.root ∧ ∀ key, lookupA (stateModel t2) key =
      ops.foldl (fun acc op =>
        match op with
        | .ins k2 v => if k2 = key then some v else acc
        | .del k2 => if k2 = key then none else acc
        | .sav => acc) (lookupA (stateModel t) key) := by
  intro ops
  induction ops with
  | nil =>
    intro t t2 hno hg hrun
    unfold runOps at hrun
    injection hrun with hrun
    subst hrun
    exact ⟨hg, fun key => rfl⟩
  | cons op rest ih =>
    intro t t2 hno hg hrun
    have hnosav : op ≠ Op.sav := hno op (List.mem_cons_self _ _)
    have hnorest : ∀ o ∈ rest, o ≠ Op.sav := fun o ho => hno o (List.mem_cons_of_mem _ ho)
    unfold runOps at hrun
    cases op with
    | sav => exact absurd rfl hnosav
    | ins k v =>
      simp only [] at hrun
      obtain ⟨t1, ht1, hrun⟩ := except_bind_ok hrun
      obtain ⟨q, hq, hq2⟩ := except_map_ok ht1
      obtain ⟨t1b, u⟩ := q
      have ht1b : t1b = t1 := hq2
      subst ht1b
      obtain ⟨hg1, hm1⟩ := insertKV_spec hg hq
      obtain ⟨hg2, hlook⟩ := ih hnorest hg1 hrun
      refine ⟨hg2, ?_⟩
      intro key
      rw [List.foldl_cons, hlook key, hm1]
      congr 1
      simp only []
      by_cases hk : k = key
      · subst hk
        rw [if_pos rfl]
        exact lookupA_minsert_self _ _ _
      · rw [if_neg hk]
        exact lookupA_minsert_other _ v (fun he => hk he.symm)
    | del k =>
      simp only [] at hrun
      obtain ⟨t1, ht1, hrun⟩ := except_bind_ok hrun
      obtain ⟨q, hq, hq2⟩ := except_map_ok ht1
      obtain ⟨t1b, rm⟩ := q
      have ht1b : t1b = t1 := hq2
      subst ht1b
      have hsort := stateModel_sorted hg
      obtain ⟨hg1, hm1⟩ := removeKey_spec hg hq
      obtain ⟨hg2, hlook⟩ := ih hnorest hg1 hrun
      refine ⟨hg2, ?_⟩
      intro key
      rw [List.foldl_cons, hlook key, hm1]
      congr 1
      simp only []
      by_cases hk : k = key
      · subst hk
        rw [if_pos rfl]
        exact lookupA_mdelete_self _ _ hsort
      · rw [if_neg hk]
        exact lookupA_mdelete_other _ (fun he => hk he.symm)

/-- C1: for every sequence of inserts and removes with no intervening save
that the code executes without error from a fresh tree, `get(k)` returns
(with some index) the value of the last insert of `k`, or `None` when `k`
was never inserted or was removed after its last insert (`lastWrite`). -/
theorem C1_get_returns_last_write (ops : List Op) (t : MTree)
    (hno : ∀ op ∈ ops, op ≠ Op.sav) (hrun : runOps ops MTree.new = .ok t)
    (k : List Nat) :
    ∃ i, MTree.get t k = .ok (i, lastWrite ops k) := by
  obtain ⟨hg, hlook⟩ := runOps_lookup ops hno
    (show GoodRoot MTree.new.root from trivial) hrun
  have hlast : lookupA (stateModel t) k = lastWrite ops k := by
    rw [hlook k]
    rfl
  unfold MTree.get
  cases hroot : t.root with
  | none =>
    have hsm : stateModel t = [] := by simp only [stateModel, hroot]
    rw [hsm] at hlast
    refine ⟨0, ?_⟩
    simp only []
    rw [← hlast]
    rfl
  | some root =>
    have hgroot : Good root := by
      rw [hroot] at hg
      exact hg
    have hsm : stateModel t = toModel root := by simp only [stateModel, hroot]
    rw [hsm] at hlast
    obtain ⟨i, hEq, _⟩ := nodeGet_spec (xcount root + 1) t.db k hgroot (Nat.lt_succ_self _)
    refine ⟨i, ?_⟩
    simp only []
    rw [hEq, ← hlast]

/-- Witness for C1: the single-insert run, evaluated concretely. -/
theorem C1_witness :
    (∀ op ∈ ([Op.ins [1] [2]] : List Op), op ≠ Op.sav) ∧
    runOps [Op.ins [1] [2]] MTree.new =
      .ok ⟨some (.dleaf [1] [2]), none, 0, 1, []⟩ ∧
    ∃ i, MTree.get ⟨some (.dleaf [1] [2]), none, 0, 1, []⟩ [1] =
      .ok (i, lastWrite [Op.ins [1] [2]] [1]) :=
  ⟨by decide, by decide,
    C1_get_returns_last_write [Op.ins [1] [2]] _ (by decide) (by decide) [1]⟩

end Iavl
